import Mathlib

/-!
Data-structure library of `pro/lesson-04-data-structures`

A shallow embedding of `stack.c`, `queue.c` and `linked_list.c`, and theorems about it.

Conventions of the embedding

* C `int` values are Lean `Int`s and `int` arithmetic is the arithmetic of `Int`.  In a
  state built through the library every counter (`top`, `size`, `front`, `rear`) is
  bounded by the capacity of a buffer or by the number of live nodes, so the arithmetic
  stays inside the `int` range `[INT_MIN, INT_MAX]`.  A state whose fields were set by hand
  can make `x + 1` or `x - 1` leave that range; the C operation is then a signed overflow
  with no defined result, the number computed here is not a value of `int`
  (`in_int_range`), and a theorem over such states carries the bound that excludes it.
* The container pointer handed to a function is non-NULL (every function starts with a
  NULL guard that returns its failure value and touches nothing).
* C truth values returned by the `is_...` predicates are Lean `Bool`s.
* An `int data[N]` buffer is a map from slot number to content together with checked
  accessors: reading or writing outside `[0, N)` is undefined behaviour in C and is
  `none` here.  So every operation on an array-backed container returns an `Option`;
  `none` means the C code performed an out-of-bounds access or divided by zero.
* `malloc` of a node is given by a flag `ok`: `true` when the allocation succeeds,
  `false` when `malloc` returns NULL.
* `printf` calls are omitted: they do not touch the containers.
-/

namespace DS

/-! ## The range of `int` -/

/-- The largest value of a 32-bit `int`. -/
def INT_MAX : Int := 2147483647

/-- The smallest value of a 32-bit `int`. -/
def INT_MIN : Int := -2147483648

/-- The number `x` is a value of `int`; when the mathematical result of an `int` operation
is not, the C operation is a signed overflow. -/
def in_int_range (x : Int) : Bool :=
  decide (INT_MIN ≤ x ∧ x ≤ INT_MAX)

/-! ## Fixed-size `int` buffers -/

/-- Contents of an `int` array, slot by slot.  Only the slots below the declared length
of the array are meaningful. -/
abbrev Buffer := Nat → Int

/-- Checked read `buf[i]` of an array declared with `n` slots. -/
def buf_read (n : Int) (buf : Buffer) (i : Int) : Option Int :=
  if 0 ≤ i ∧ i < n then some (buf i.toNat) else none

/-- Checked write `buf[i] = v` of an array declared with `n` slots. -/
def buf_write (n : Int) (buf : Buffer) (i : Int) (v : Int) : Option Buffer :=
  if 0 ≤ i ∧ i < n then some (Function.update buf i.toNat v) else none

/-! ## stack.h / stack.c : array-backed stack -/

/-- Constant `#define MAX_STACK_SIZE 100` -/
def MAX_STACK_SIZE : Int := 100

/-- Type `typedef struct Stack { int data[MAX_STACK_SIZE]; int top; int capacity; } Stack;` -/
structure Stack where
  data : Buffer
  top : Int
  capacity : Int

/-- Function `create_stack`: `malloc` leaves `data` uninitialised, `uninit` is whatever it holds. -/
def create_stack (uninit : Buffer) : Stack :=
  { data := uninit, top := -1, capacity := MAX_STACK_SIZE }

/-- Function `is_stack_empty`: `stack->top == -1`. -/
def is_stack_empty (stack : Stack) : Bool :=
  decide (stack.top = -1)

/-- Function `is_stack_full`: `stack->top == stack->capacity - 1`. -/
def is_stack_full (stack : Stack) : Bool :=
  decide (stack.top = stack.capacity - 1)

/-- Function `stack_size`: `stack->top + 1`. -/
def stack_size (stack : Stack) : Int :=
  stack.top + 1

/-- Function `push`: returns 0 on a full stack, else `stack->data[++stack->top] = data` and 1. -/
def push (stack : Stack) (data : Int) : Option (Int × Stack) :=
  if is_stack_full stack then some (0, stack)
  else
    let top := stack.top + 1
    match buf_write MAX_STACK_SIZE stack.data top data with
    | some buf => some (1, { stack with data := buf, top := top })
    | none => none

/-- Function `pop`: returns -1 on an empty stack, else `stack->data[stack->top--]`. -/
def pop (stack : Stack) : Option (Int × Stack) :=
  if is_stack_empty stack then some (-1, stack)
  else
    match buf_read MAX_STACK_SIZE stack.data stack.top with
    | some v => some (v, { stack with top := stack.top - 1 })
    | none => none

/-- Function `peek`: returns -1 on an empty stack, else `stack->data[stack->top]`. -/
def peek (stack : Stack) : Option (Int × Stack) :=
  if is_stack_empty stack then some (-1, stack)
  else
    match buf_read MAX_STACK_SIZE stack.data stack.top with
    | some v => some (v, stack)
    | none => none

/-- Calls `push` once for each element of the list, in order, and collects the
return values. -/
def push_all (stack : Stack) : List Int → Option (List Int × Stack)
  | [] => some ([], stack)
  | v :: vs =>
    match push stack v with
    | none => none
    | some (r, s1) =>
      match push_all s1 vs with
      | none => none
      | some (rs, s2) => some (r :: rs, s2)

/-- Calls `pop` the given number of times and collects the return values. -/
def pop_times (stack : Stack) : Nat → Option (List Int × Stack)
  | 0 => some ([], stack)
  | n + 1 =>
    match pop stack with
    | none => none
    | some (r, s1) =>
      match pop_times s1 n with
      | none => none
      | some (rs, s2) => some (r :: rs, s2)


/-! ## stack.h / stack.c : node-backed stack -/

/-- A `StackNode*`: NULL, or the address of a node
`struct StackNode { int data; struct StackNode* next; }`.  The stack owns its nodes and no
node is shared, so a pointer is given by the chain of nodes it leads to. -/
inductive StackNodePtr where
  | null : StackNodePtr
  | node (data : Int) (next : StackNodePtr) : StackNodePtr
deriving DecidableEq

/-- Type `typedef struct LinkedStack { StackNode* top; int size; } LinkedStack;` -/
structure LinkedStack where
  top : StackNodePtr
  size : Int
deriving DecidableEq

/-- Function `create_linked_stack`. -/
def create_linked_stack : LinkedStack :=
  { top := .null, size := 0 }

/-- Function `is_linked_stack_empty`: `stack->top == NULL`. -/
def is_linked_stack_empty (stack : LinkedStack) : Bool :=
  match stack.top with
  | .null => true
  | .node _ _ => false

/-- Function `linked_stack_size`: `stack->size`. -/
def linked_stack_size (stack : LinkedStack) : Int :=
  stack.size

/-- Function `push_linked`: returns 0 when `malloc` fails, else links a new node in front of the
old top, increments `size` and returns 1. -/
def push_linked (stack : LinkedStack) (data : Int) (ok : Bool) : Int × LinkedStack :=
  if ok then (1, { top := .node data stack.top, size := stack.size + 1 })
  else (0, stack)

/-- Function `pop_linked`: returns -1 on an empty stack, else unlinks the top node, decrements
`size` and returns the node's data. -/
def pop_linked (stack : LinkedStack) : Int × LinkedStack :=
  match stack.top with
  | .null => (-1, stack)
  | .node data next => (data, { top := next, size := stack.size - 1 })

/-- Function `peek_linked`: returns -1 on an empty stack, else `stack->top->data`. -/
def peek_linked (stack : LinkedStack) : Int × LinkedStack :=
  match stack.top with
  | .null => (-1, stack)
  | .node data _ => (data, stack)

/-- Calls `push_linked` (allocation succeeding) once for each element of the list, in
order, and collects the return values. -/
def push_linked_all (stack : LinkedStack) : List Int → List Int × LinkedStack
  | [] => ([], stack)
  | v :: vs =>
    let r := push_linked stack v true
    let rest := push_linked_all r.2 vs
    (r.1 :: rest.1, rest.2)

/-- Calls `pop_linked` the given number of times and collects the return values. -/
def pop_linked_times (stack : LinkedStack) : Nat → List Int × LinkedStack
  | 0 => ([], stack)
  | n + 1 =>
    let r := pop_linked stack
    let rest := pop_linked_times r.2 n
    (r.1 :: rest.1, rest.2)

/-! ## queue.h / queue.c : circular array queue -/

/-- Constant `#define MAX_QUEUE_SIZE 100` -/
def MAX_QUEUE_SIZE : Int := 100

/-- Type `typedef struct Queue { int data[MAX_QUEUE_SIZE]; int front; int rear; int size;
int capacity; } Queue;` -/
structure Queue where
  data : Buffer
  front : Int
  rear : Int
  size : Int
  capacity : Int

/-- The C expression `a % b` on `int`s: remainder of the division truncated toward zero,
undefined (`none`) when `b` is 0. -/
def c_mod (a b : Int) : Option Int :=
  if b = 0 then none else some (Int.tmod a b)

/-- Function `create_queue`: `malloc` leaves `data` uninitialised, `uninit` is whatever it holds. -/
def create_queue (uninit : Buffer) : Queue :=
  { data := uninit, front := 0, rear := -1, size := 0, capacity := MAX_QUEUE_SIZE }

/-- Function `is_queue_empty`: `queue->size == 0`. -/
def is_queue_empty (queue : Queue) : Bool :=
  decide (queue.size = 0)

/-- Function `is_queue_full`: `queue->size == queue->capacity`. -/
def is_queue_full (queue : Queue) : Bool :=
  decide (queue.size = queue.capacity)

/-- Function `queue_size`: `queue->size`. -/
def queue_size (queue : Queue) : Int :=
  queue.size

/-- Function `enqueue`: returns 0 on a full queue, else advances `rear` modulo `capacity`, stores
`data` there, increments `size` and returns 1. -/
def enqueue (queue : Queue) (data : Int) : Option (Int × Queue) :=
  if is_queue_full queue then some (0, queue)
  else
    match c_mod (queue.rear + 1) queue.capacity with
    | none => none
    | some rear =>
      match buf_write MAX_QUEUE_SIZE queue.data rear data with
      | none => none
      | some buf => some (1, { queue with data := buf, rear := rear, size := queue.size + 1 })

/-- Function `dequeue`: returns -1 on an empty queue, else reads `data[front]`, advances `front`
modulo `capacity`, decrements `size` and returns the value read. -/
def dequeue (queue : Queue) : Option (Int × Queue) :=
  if is_queue_empty queue then some (-1, queue)
  else
    match buf_read MAX_QUEUE_SIZE queue.data queue.front with
    | none => none
    | some data =>
      match c_mod (queue.front + 1) queue.capacity with
      | none => none
      | some front => some (data, { queue with front := front, size := queue.size - 1 })

/-- Function `front_element`: returns -1 on an empty queue, else `queue->data[queue->front]`. -/
def front_element (queue : Queue) : Option (Int × Queue) :=
  if is_queue_empty queue then some (-1, queue)
  else
    match buf_read MAX_QUEUE_SIZE queue.data queue.front with
    | none => none
    | some v => some (v, queue)

/-- Function `rear_element`: returns -1 on an empty queue, else `queue->data[queue->rear]`. -/
def rear_element (queue : Queue) : Option (Int × Queue) :=
  if is_queue_empty queue then some (-1, queue)
  else
    match buf_read MAX_QUEUE_SIZE queue.data queue.rear with
    | none => none
    | some v => some (v, queue)

/-- One call on a queue: `enqueue(queue, v)` or `dequeue(queue)`. -/
inductive QueueOp where
  | enq (v : Int) : QueueOp
  | deq : QueueOp
deriving DecidableEq

/-- Runs a sequence of `enqueue` / `dequeue` calls on the circular queue and collects the
return values. -/
def run_queue (queue : Queue) : List QueueOp → Option (List Int × Queue)
  | [] => some ([], queue)
  | op :: ops =>
    match (match op with
      | .enq v => enqueue queue v
      | .deq => dequeue queue) with
    | none => none
    | some (r, q1) =>
      match run_queue q1 ops with
      | none => none
      | some (rs, q2) => some (r :: rs, q2)

/-! ## queue.h / queue.c : node-backed queue

The queue keeps two pointers, `front` and `rear`, into one chain of nodes, and `enqueue_linked`
writes through `rear`.  The nodes therefore live in an explicit heap: a pointer is NULL
(`none`) or an address (`some a`), cell `a` of the heap is `some node` while the node at
address `a` is allocated and `none` after `free`.  `malloc` returns the first address that
was never used.  Dereferencing NULL, a freed node or an address never allocated is
undefined behaviour, `none`. -/

/-- Type `typedef struct QueueNode { int data; struct QueueNode* next; } QueueNode;` -/
structure QueueNode where
  data : Int
  next : Option Nat
deriving DecidableEq

/-- The heap of queue nodes, indexed by address. -/
abbrev QueueHeap := List (Option QueueNode)

/-- The node a pointer points to; `none` when the pointer may not be dereferenced. -/
def deref (heap : QueueHeap) (p : Option Nat) : Option QueueNode :=
  match p with
  | none => none
  | some a =>
    match heap[a]? with
    | some (some node) => some node
    | _ => none

/-- Type `typedef struct LinkedQueue { QueueNode* front; QueueNode* rear; int size; }
LinkedQueue;` -/
structure LinkedQueue where
  front : Option Nat
  rear : Option Nat
  size : Int
deriving DecidableEq

/-- Function `create_linked_queue`. -/
def create_linked_queue : LinkedQueue :=
  { front := none, rear := none, size := 0 }

/-- Function `is_linked_queue_empty`: `queue->front == NULL`. -/
def is_linked_queue_empty (queue : LinkedQueue) : Bool :=
  queue.front.isNone

/-- Function `linked_queue_size`: `queue->size`. -/
def linked_queue_size (queue : LinkedQueue) : Int :=
  queue.size

/-- Function `enqueue_linked`: returns 0 when `malloc` fails; else initialises the new node with
`data` and a NULL `next`, makes it both `front` and `rear` of an empty queue or links it
behind the old `rear` node, increments `size` and returns 1. -/
def enqueue_linked (heap : QueueHeap) (queue : LinkedQueue) (data : Int) (ok : Bool) :
    Option (Int × QueueHeap × LinkedQueue) :=
  if ok then
    let new_node := heap.length
    let heap1 := heap ++ [some { data := data, next := none }]
    if is_linked_queue_empty queue then
      some (1, heap1,
        { front := some new_node, rear := some new_node, size := queue.size + 1 })
    else
      match queue.rear, deref heap1 queue.rear with
      | some r, some node =>
        some (1, heap1.set r (some { node with next := some new_node }),
          { queue with rear := some new_node, size := queue.size + 1 })
      | _, _ => none
  else some (0, heap, queue)

/-- Function `dequeue_linked`: returns -1 on an empty queue; else moves `front` to the next node,
sets `rear` to NULL as well when `front` became NULL, frees the old front node,
decrements `size` and returns the data of the freed node. -/
def dequeue_linked (heap : QueueHeap) (queue : LinkedQueue) :
    Option (Int × QueueHeap × LinkedQueue) :=
  if is_linked_queue_empty queue then some (-1, heap, queue)
  else
    match queue.front, deref heap queue.front with
    | some temp, some node =>
      let front := node.next
      let rear := if front.isNone then none else queue.rear
      some (node.data, heap.set temp none,
        { front := front, rear := rear, size := queue.size - 1 })
    | _, _ => none

/-- Function `front_element_linked`: returns -1 on an empty queue, else `queue->front->data`. -/
def front_element_linked (heap : QueueHeap) (queue : LinkedQueue) : Option Int :=
  if is_linked_queue_empty queue then some (-1)
  else (deref heap queue.front).map QueueNode.data

/-- Function `rear_element_linked`: returns -1 on an empty queue, else `queue->rear->data`. -/
def rear_element_linked (heap : QueueHeap) (queue : LinkedQueue) : Option Int :=
  if is_linked_queue_empty queue then some (-1)
  else (deref heap queue.rear).map QueueNode.data

/-- Runs a sequence of `enqueue_linked` (allocation succeeding) / `dequeue_linked` calls
on the node-backed queue and collects the return values. -/
def run_linked_queue (heap : QueueHeap) (queue : LinkedQueue) :
    List QueueOp → Option (List Int × QueueHeap × LinkedQueue)
  | [] => some ([], heap, queue)
  | op :: ops =>
    match (match op with
      | .enq v => enqueue_linked heap queue v true
      | .deq => dequeue_linked heap queue) with
    | none => none
    | some (r, h1, q1) =>
      match run_linked_queue h1 q1 ops with
      | none => none
      | some (rs, h2, q2) => some (r :: rs, h2, q2)

/-! ## linked_list.h / linked_list.c -/

/-- A `Node*`: NULL, or the address of a node `struct Node { int data; struct Node* next; }`.
The list owns its nodes and no node is shared, so a pointer is given by the chain of
nodes it leads to. -/
inductive NodePtr where
  | null : NodePtr
  | node (data : Int) (next : NodePtr) : NodePtr
deriving DecidableEq

/-- Type `typedef struct LinkedList { Node* head; int size; } LinkedList;` -/
structure LinkedList where
  head : NodePtr
  size : Int
deriving DecidableEq

/-- Function `create_list`. -/
def create_list : LinkedList :=
  { head := .null, size := 0 }

/-- Function `insert_at_beginning`: nothing when `malloc` fails, else the new node becomes the head
and `size` is incremented. -/
def insert_at_beginning (list : LinkedList) (data : Int) (ok : Bool) : LinkedList :=
  if ok then { head := .node data list.head, size := list.size + 1 }
  else list

/-- The loop `while (current->next != NULL) current = current->next;` of `insert_at_end`
started at the node `current` (holding `data`, followed by `next`), and the assignment
`current->next = new_node` after it. -/
def link_at_end (data : Int) (next : NodePtr) (new_node : NodePtr) : NodePtr :=
  match next with
  | .null => .node data new_node
  | .node d n => .node data (link_at_end d n new_node)

/-- Function `insert_at_end`: nothing when `malloc` fails, else the new node becomes the head of an
empty list or is linked behind the last node, and `size` is incremented. -/
def insert_at_end (list : LinkedList) (data : Int) (ok : Bool) : LinkedList :=
  if ok then
    match list.head with
    | .null => { head := .node data .null, size := list.size + 1 }
    | .node d n => { head := link_at_end d n (.node data .null), size := list.size + 1 }
  else list

/-- The loop `for (i = 0; i < position - 1; i++) current = current->next;` of
`insert_at_position` with `steps` iterations left, started at `current`, and the splice
`new_node->next = current->next; current->next = new_node;` after it.  `none` when the
walk dereferences NULL. -/
def splice_after (current : NodePtr) (steps : Nat) (data : Int) : Option NodePtr :=
  match current, steps with
  | .null, _ => none
  | .node d n, 0 => some (.node d (.node data n))
  | .node d n, k + 1 =>
    match splice_after n k data with
    | none => none
    | some n1 => some (.node d n1)

/-- Function `insert_at_position`: nothing for a negative position; `insert_at_beginning` for
position 0; `insert_at_end` for a position of at least `size`; else (nothing when
`malloc` fails) the new node is linked behind the node reached after `position - 1` steps
from the head, and `size` is incremented. -/
def insert_at_position (list : LinkedList) (data : Int) (position : Int) (ok : Bool) :
    Option LinkedList :=
  if position < 0 then some list
  else if position = 0 then some (insert_at_beginning list data ok)
  else if position ≥ list.size then some (insert_at_end list data ok)
  else if ok then
    match splice_after list.head (position - 1).toNat data with
    | none => none
    | some h => some { head := h, size := list.size + 1 }
  else some list

/-- Function `delete_from_beginning`: returns -1 on an empty list, else unlinks the head node,
decrements `size` and returns the node's data. -/
def delete_from_beginning (list : LinkedList) : Int × LinkedList :=
  match list.head with
  | .null => (-1, list)
  | .node data next => (data, { head := next, size := list.size - 1 })

/-- The loop `while (current->next->next != NULL) current = current->next;` of
`delete_from_end` started at the node `current` (holding `data`) whose successor holds
`data1` and is followed by `next1`, and the removal of the last node after it: the data
of the removed node and the chain from `current` afterwards. -/
def unlink_last (data : Int) (data1 : Int) (next1 : NodePtr) : Int × NodePtr :=
  match next1 with
  | .null => (data1, .node data .null)
  | .node d2 n2 =>
    let r := unlink_last data1 d2 n2
    (r.1, .node data r.2)

/-- Function `delete_from_end`: returns -1 on an empty list; else removes the last node (the head
itself when it is the only node), decrements `size` and returns the node's data. -/
def delete_from_end (list : LinkedList) : Int × LinkedList :=
  match list.head with
  | .null => (-1, list)
  | .node data .null => (data, { head := .null, size := list.size - 1 })
  | .node data (.node d1 n1) =>
    let r := unlink_last data d1 n1
    (r.1, { head := r.2, size := list.size - 1 })

/-- The loop `for (i = 0; i < position - 1; i++) current = current->next;` of
`delete_from_position` with `steps` iterations left, started at `current`, and the removal
of the node behind the one reached: the data of the removed node and the chain from
`current` afterwards.  `none` when NULL is dereferenced. -/
def unlink_after (current : NodePtr) (steps : Nat) : Option (Int × NodePtr) :=
  match current, steps with
  | .null, _ => none
  | .node _ .null, 0 => none
  | .node d (.node d1 n1), 0 => some (d1, .node d n1)
  | .node d n, k + 1 =>
    match unlink_after n k with
    | none => none
    | some (r, n1) => some (r, .node d n1)

/-- Function `delete_from_position`: returns -1 on an empty list or for a position outside
`[0, size)`; `delete_from_beginning` for position 0; else removes the node behind the one
reached after `position - 1` steps from the head, decrements `size` and returns the
removed node's data. -/
def delete_from_position (list : LinkedList) (position : Int) : Option (Int × LinkedList) :=
  match list.head with
  | .null => some (-1, list)
  | .node _ _ =>
    if position < 0 ∨ position ≥ list.size then some (-1, list)
    else if position = 0 then some (delete_from_beginning list)
    else
      match unlink_after list.head (position - 1).toNat with
      | none => none
      | some (data, h) => some (data, { head := h, size := list.size - 1 })

/-- The loop of `search` started at `current` with counter `position`: the position of
the first node holding `data`, -1 when the chain ends first. -/
def search_loop (current : NodePtr) (position : Int) (data : Int) : Int :=
  match current with
  | .null => -1
  | .node d n => if d = data then position else search_loop n (position + 1) data

/-- Function `search`: -1 on an empty list, else the result of the loop started at the head. -/
def search (list : LinkedList) (data : Int) : Int :=
  match list.head with
  | .null => -1
  | .node _ _ => search_loop list.head 0 data

/-- The loop of `reverse_list`: `next = current->next; current->next = prev;
prev = current; current = next;` until `current` is NULL; the final `prev`. -/
def reverse_loop (prev : NodePtr) (current : NodePtr) : NodePtr :=
  match current with
  | .null => prev
  | .node d n => reverse_loop (.node d prev) n

/-- Function `reverse_list`: nothing on an empty list, else the head becomes the `prev` the loop
ends with. -/
def reverse_list (list : LinkedList) : LinkedList :=
  match list.head with
  | .null => list
  | .node _ _ => { list with head := reverse_loop .null list.head }

/-- Function `get_size`: `list->size`. -/
def get_size (list : LinkedList) : Int :=
  list.size

/-- Function `is_empty`: `list->head == NULL`. -/
def is_empty (list : LinkedList) : Bool :=
  match list.head with
  | .null => true
  | .node _ _ => false

/-! ## Abstraction: what a container holds -/

/-- The array-backed stack `s` holds exactly the values `l`, oldest first. -/
def StackHolds (s : Stack) (l : List Int) : Prop :=
  s.capacity = 100 ∧ s.top + 1 = l.length ∧ l.length ≤ 100 ∧
    ∀ i : Nat, i < l.length → l[i]? = some (s.data i)


/-- The values held by the chain of stack nodes starting at a pointer, top first. -/
def stack_values : StackNodePtr → List Int
  | .null => []
  | .node data next => data :: stack_values next

/-- The values held by the chain of list nodes starting at a pointer, head first. -/
def node_values : NodePtr → List Int
  | .null => []
  | .node data next => data :: node_values next

/-- The circular queue `q` holds exactly the values `l`, oldest first: they sit in the
`size` consecutive slots starting at `front`, modulo the capacity 100. -/
def QueueHolds (q : Queue) (l : List Int) : Prop :=
  q.capacity = 100 ∧ q.size = l.length ∧ l.length ≤ 100 ∧
    0 ≤ q.front ∧ q.front < 100 ∧ -1 ≤ q.rear ∧ q.rear < 100 ∧
    (q.rear + 1) % 100 = (q.front + l.length) % 100 ∧
    ∀ i : Nat, i < l.length → l[i]? = some (q.data ((q.front.toNat + i) % 100))

/-- The chain of allocated nodes that starts at pointer `p` and ends with a NULL `next`
sits at the addresses and holds the values listed in `cells`. -/
def QueueChain (heap : QueueHeap) : Option Nat → List (Nat × Int) → Prop
  | p, [] => p = none
  | p, (a, v) :: rest =>
    p = some a ∧ ∃ nx, heap[a]? = some (some { data := v, next := nx }) ∧
      QueueChain heap nx rest

/-- The node-backed queue `q` holds exactly the values `l`, oldest first: the chain from
`front` holds them at pairwise different addresses, `rear` is the last node of that chain
(NULL when the chain is empty) and `size` is the length. -/
def LinkedQueueHolds (heap : QueueHeap) (q : LinkedQueue) (l : List Int) : Prop :=
  ∃ cells : List (Nat × Int),
    cells.map Prod.snd = l ∧ QueueChain heap q.front cells ∧
    (cells.map Prod.fst).Nodup ∧ q.rear = cells.getLast?.map Prod.fst ∧
    q.size = l.length

/-- Reference FIFO list bounded at capacity `cap`, one call: `enqueue` returns 1 and
appends when fewer than `cap` elements are stored, else returns 0 and changes nothing;
`dequeue` returns and removes the oldest stored element, or returns -1 when empty. -/
def bounded_fifo_step (cap : Nat) (l : List Int) : QueueOp → Int × List Int
  | .enq v => if l.length < cap then (1, l ++ [v]) else (0, l)
  | .deq =>
    match l with
    | [] => (-1, [])
    | x :: xs => (x, xs)

/-- Reference FIFO list bounded at capacity `cap`: the return values of a sequence of
calls and the list stored afterwards. -/
def run_bounded_fifo (cap : Nat) (l : List Int) : List QueueOp → List Int × List Int
  | [] => ([], l)
  | op :: ops =>
    let r := bounded_fifo_step cap l op
    let rest := run_bounded_fifo cap r.2 ops
    (r.1 :: rest.1, rest.2)

/-- Unbounded reference FIFO list, one call: `enqueue` returns 1 and appends; `dequeue`
returns and removes the oldest stored element, or returns -1 when empty. -/
def fifo_step (l : List Int) : QueueOp → Int × List Int
  | .enq v => (1, l ++ [v])
  | .deq =>
    match l with
    | [] => (-1, [])
    | x :: xs => (x, xs)

/-- Unbounded reference FIFO list: the return values of a sequence of calls and the list
stored afterwards. -/
def run_fifo (l : List Int) : List QueueOp → List Int × List Int
  | [] => ([], l)
  | op :: ops =>
    let r := fifo_step l op
    let rest := run_fifo r.2 ops
    (r.1 :: rest.1, rest.2)

/-- The array-backed stack `s` and the node-backed stack `ls` hold the same values `l`
(oldest first), and the `size` field of `ls` is their number. -/
def StacksAgree (s : Stack) (ls : LinkedStack) (l : List Int) : Prop :=
  StackHolds s l ∧ stack_values ls.top = l.reverse ∧ ls.size = l.length

/-! ## Drivers for the scenarios and the comparison of the two stacks -/

/-- The loop `while (!is_queue_empty(queue)) { int dequeued = dequeue(queue); ... }` of
`demonstrate_queue`, run for at most `fuel` iterations: the values dequeued and the queue
when the loop ends.  `none` when a `dequeue` is undefined or when the loop is still
running after `fuel` iterations. -/
def dequeue_until_empty (queue : Queue) : Nat → Option (List Int × Queue)
  | 0 => if is_queue_empty queue then some ([], queue) else none
  | fuel + 1 =>
    if is_queue_empty queue then some ([], queue)
    else
      match dequeue queue with
      | none => none
      | some (r, q1) =>
        match dequeue_until_empty q1 fuel with
        | none => none
        | some (rs, q2) => some (r :: rs, q2)

/-- The value passed to the most recent successful `enqueue` of a sequence of calls, each
paired with its return value: the latest call that is an `enqueue` and returned 1. -/
def last_successful_enqueue : List (QueueOp × Int) → Option Int
  | [] => none
  | (op, r) :: rest =>
    match last_successful_enqueue rest with
    | some v => some v
    | none =>
      match op with
      | .enq v => if r = 1 then some v else none
      | .deq => none

/-- One call on a stack: push, pop, peek, the size query or the emptiness query. -/
inductive StackOp where
  | push (v : Int) : StackOp
  | pop : StackOp
  | peek : StackOp
  | size : StackOp
  | is_empty : StackOp
deriving DecidableEq

/-- The `int` a C predicate returns: 1 for true, 0 for false. -/
def c_bool (b : Bool) : Int :=
  if b then 1 else 0

/-- One call on the array-backed stack: `push`, `pop`, `peek`, `stack_size` or
`is_stack_empty`, with its return value. -/
def stack_step (stack : Stack) : StackOp → Option (Int × Stack)
  | .push v => push stack v
  | .pop => pop stack
  | .peek => peek stack
  | .size => some (stack_size stack, stack)
  | .is_empty => some (c_bool (is_stack_empty stack), stack)

/-- Runs a sequence of calls on the array-backed stack and collects the return values. -/
def run_stack (stack : Stack) : List StackOp → Option (List Int × Stack)
  | [] => some ([], stack)
  | op :: ops =>
    match stack_step stack op with
    | none => none
    | some (r, s1) =>
      match run_stack s1 ops with
      | none => none
      | some (rs, s2) => some (r :: rs, s2)

/-- One call on the node-backed stack (allocation succeeding): `push_linked`,
`pop_linked`, `peek_linked`, `linked_stack_size` or `is_linked_stack_empty`, with its
return value. -/
def linked_stack_step (stack : LinkedStack) : StackOp → Int × LinkedStack
  | .push v => push_linked stack v true
  | .pop => pop_linked stack
  | .peek => peek_linked stack
  | .size => (linked_stack_size stack, stack)
  | .is_empty => (c_bool (is_linked_stack_empty stack), stack)

/-- Runs a sequence of calls on the node-backed stack and collects the return values. -/
def run_linked_stack (stack : LinkedStack) : List StackOp → List Int × LinkedStack
  | [] => ([], stack)
  | op :: ops =>
    let r := linked_stack_step stack op
    let rest := run_linked_stack r.2 ops
    (r.1 :: rest.1, rest.2)

/-- During a sequence of calls that starts with `n` stored elements the number of stored
elements never exceeds `cap`: a push stores one more element, a pop removes one when
there is one, the other calls store and remove nothing. -/
def stays_within (cap : Nat) : Nat → List StackOp → Bool
  | n, [] => decide (n ≤ cap)
  | n, .push _ :: ops => decide (n + 1 ≤ cap) && stays_within cap (n + 1) ops
  | n, .pop :: ops => decide (n ≤ cap) && stays_within cap (n - 1) ops
  | n, _ :: ops => decide (n ≤ cap) && stays_within cap n ops

/-! ## Call sequences on the list, stack contents, and the parentheses demo of main.c -/

/-- One call on a linked list that can change it; the insertions carry the outcome of
their `malloc`. -/
inductive ListOp where
  | insert_at_beginning (data : Int) (ok : Bool) : ListOp
  | insert_at_end (data : Int) (ok : Bool) : ListOp
  | insert_at_position (data : Int) (position : Int) (ok : Bool) : ListOp
  | delete_from_beginning : ListOp
  | delete_from_end : ListOp
  | delete_from_position (position : Int) : ListOp
  | reverse_list : ListOp
deriving DecidableEq

/-- The list after one call; `none` when the call dereferences NULL. -/
def list_step (list : LinkedList) : ListOp → Option LinkedList
  | .insert_at_beginning data ok => some (insert_at_beginning list data ok)
  | .insert_at_end data ok => some (insert_at_end list data ok)
  | .insert_at_position data position ok => insert_at_position list data position ok
  | .delete_from_beginning => some (delete_from_beginning list).2
  | .delete_from_end => some (delete_from_end list).2
  | .delete_from_position position =>
    match delete_from_position list position with
    | none => none
    | some r => some r.2
  | .reverse_list => some (reverse_list list)

/-- Runs a sequence of calls on a linked list. -/
def run_list (list : LinkedList) : List ListOp → Option LinkedList
  | [] => some list
  | op :: ops =>
    match list_step list op with
    | none => none
    | some l1 => run_list l1 ops

/-- The values pushed and not yet popped, oldest first, after a sequence of calls on a
stack of capacity `cap` that held `l`: a push on a stack holding `cap` values is rejected,
a pop removes the value pushed last, the other calls store and remove nothing. -/
def pushed_not_popped (cap : Nat) (l : List Int) : List StackOp → List Int
  | [] => l
  | .push v :: ops => pushed_not_popped cap (if l.length < cap then l ++ [v] else l) ops
  | .pop :: ops => pushed_not_popped cap l.dropLast ops
  | _ :: ops => pushed_not_popped cap l ops

/-- The loop `for (i = 0; expression[i] != 0; i++)` of the parentheses check in
`demonstrate_practical_applications`, over the characters before the terminator: pushes 1
on an opening parenthesis, on a closing one sets `balanced = 0` and leaves the loop when
the stack is empty and pops otherwise, skips every other character; the value of
`balanced` (initially 1) and the stack when the loop ends.  The return values of `push`
and `pop` are not looked at. -/
def paren_loop (paren_stack : Stack) : List Char → Option (Int × Stack)
  | [] => some (1, paren_stack)
  | c :: rest =>
    if c = '(' then
      match push paren_stack 1 with
      | none => none
      | some r => paren_loop r.2 rest
    else if c = ')' then
      if is_stack_empty paren_stack then some (0, paren_stack)
      else
        match pop paren_stack with
        | none => none
        | some r => paren_loop r.2 rest
    else paren_loop paren_stack rest

/-- The parentheses check of `demonstrate_practical_applications` on an expression: the
loop on a stack from `create_stack`, then `if (!is_stack_empty(paren_stack)) balanced = 0;`;
the final value of `balanced`. -/
def check_parentheses (uninit : Buffer) (expression : List Char) : Option Int :=
  match paren_loop (create_stack uninit) expression with
  | none => none
  | some (balanced, paren_stack) =>
    some (if is_stack_empty paren_stack then balanced else 0)

/-- The number of opening parentheses minus the number of closing parentheses of a
string; other characters do not count. -/
def paren_excess : List Char → Int
  | [] => 0
  | c :: rest =>
    if c = '(' then paren_excess rest + 1
    else if c = ')' then paren_excess rest - 1
    else paren_excess rest

/-- The parentheses of a string are balanced: every prefix has at least as many opening
as closing parentheses, and the totals are equal. -/
def parens_balanced (expression : List Char) : Prop :=
  (∀ n : Nat, 0 ≤ paren_excess (expression.take n)) ∧ paren_excess expression = 0

/-! ## Array-backed stack: theorems -/

theorem stackHolds_create (uninit : Buffer) : StackHolds (create_stack uninit) [] := by
  refine ⟨rfl, ?_, ?_, ?_⟩
  · simp [create_stack]
  · simp
  · intro i hi
    simp at hi

theorem stackHolds_push {s : Stack} {l : List Int} (h : StackHolds s l) (v : Int)
    (hlt : l.length < 100) :
    ∃ s1, push s v = some (1, s1) ∧ StackHolds s1 (l ++ [v]) := by
  obtain ⟨hc, ht, _, hd⟩ := h
  have hfull : is_stack_full s = false := by
    simp only [is_stack_full, decide_eq_false_iff_not]
    omega
  have hw : buf_write MAX_STACK_SIZE s.data (s.top + 1) v
      = some (Function.update s.data (s.top + 1).toNat v) := by
    simp only [buf_write, MAX_STACK_SIZE]
    rw [if_pos]
    omega
  refine ⟨{ s with data := Function.update s.data (s.top + 1).toNat v, top := s.top + 1 }, ?_, ?_⟩
  · simp [push, hfull, hw]
  · have hidx : (s.top + 1).toNat = l.length := by omega
    refine ⟨hc, ?_, ?_, ?_⟩
    · simp only [List.length_append, List.length_singleton]
      push_cast
      omega
    · simp only [List.length_append, List.length_singleton]
      omega
    · intro i hi
      simp only [List.length_append, List.length_singleton] at hi
      dsimp only
      rw [hidx]
      by_cases hil : i = l.length
      · subst hil
        simp
      · have hi2 : i < l.length := by omega
        rw [List.getElem?_append_left hi2, Function.update_noteq hil]
        exact hd i hi2

theorem stackHolds_pop {s : Stack} {l : List Int} {v : Int} (h : StackHolds s (l ++ [v])) :
    ∃ s1, pop s = some (v, s1) ∧ StackHolds s1 l := by
  obtain ⟨hc, ht, hle, hd⟩ := h
  simp only [List.length_append, List.length_singleton] at ht hle hd
  push_cast at ht
  have hemp : is_stack_empty s = false := by
    simp only [is_stack_empty, decide_eq_false_iff_not]
    omega
  have hidx : s.top.toNat = l.length := by omega
  have hv : s.data l.length = v := by
    have := hd l.length (by omega)
    simpa using this.symm
  have hr : buf_read MAX_STACK_SIZE s.data s.top = some v := by
    simp only [buf_read, MAX_STACK_SIZE]
    rw [if_pos (by omega), hidx, hv]
  refine ⟨{ s with top := s.top - 1 }, ?_, ?_⟩
  · simp [pop, hemp, hr]
  · refine ⟨hc, ?_, by omega, ?_⟩
    · show s.top - 1 + 1 = _
      omega
    · intro i hi
      have := hd i (by omega)
      rwa [List.getElem?_append_left hi] at this

theorem stackHolds_push_all {s : Stack} {l : List Int} (h : StackHolds s l) (vs : List Int)
    (hlen : l.length + vs.length ≤ 100) :
    ∃ s1, push_all s vs = some (List.replicate vs.length 1, s1) ∧ StackHolds s1 (l ++ vs) := by
  induction vs generalizing s l with
  | nil => exact ⟨s, rfl, by simpa using h⟩
  | cons v vs ih =>
    simp only [List.length_cons] at hlen
    obtain ⟨s1, hp, h1⟩ := stackHolds_push h v (by omega)
    obtain ⟨s2, hp2, h2⟩ := ih h1 (by simp only [List.length_append, List.length_singleton]; omega)
    refine ⟨s2, ?_, by simpa using h2⟩
    simp [push_all, hp, hp2, List.replicate_succ]

theorem stackHolds_pop_times {s : Stack} (l vs : List Int) (h : StackHolds s (l ++ vs)) :
    ∃ s1, pop_times s vs.length = some (vs.reverse, s1) ∧ StackHolds s1 l := by
  induction vs using List.reverseRecOn generalizing s with
  | nil => exact ⟨s, rfl, by simpa using h⟩
  | append_singleton vs v ih =>
    rw [← List.append_assoc] at h
    obtain ⟨s1, hp, h1⟩ := stackHolds_pop h
    obtain ⟨s2, hp2, h2⟩ := ih h1
    refine ⟨s2, ?_, h2⟩
    simp [pop_times, hp, hp2]

/-- C1: pushing a list of at most 100 integers on a fresh array-backed stack succeeds at
every push (each returns 1), and popping as many times then returns the list reversed and
leaves the stack empty with size 0. -/
theorem array_stack_lifo (uninit : Buffer) (vs : List Int) (h : vs.length ≤ 100) :
    ∃ s1 s2, push_all (create_stack uninit) vs = some (List.replicate vs.length 1, s1) ∧
      pop_times s1 vs.length = some (vs.reverse, s2) ∧
      is_stack_empty s2 = true ∧ stack_size s2 = 0 := by
  obtain ⟨s1, hp, h1⟩ := stackHolds_push_all (stackHolds_create uninit) vs (by simpa using h)
  obtain ⟨s2, hq, h2⟩ := stackHolds_pop_times [] vs h1
  refine ⟨s1, s2, hp, hq, ?_, ?_⟩
  · have := h2.2.1
    simp only [List.length_nil] at this
    simp only [is_stack_empty, decide_eq_true_eq]
    omega
  · have := h2.2.1
    simpa [stack_size] using this

theorem array_stack_lifo_witness :
    [10, 20, 30].length ≤ 100 ∧
    ∃ s1 s2, push_all (create_stack (fun _ => 0)) [10, 20, 30]
        = some (List.replicate [10, 20, 30].length 1, s1) ∧
      pop_times s1 [10, 20, 30].length = some ([10, 20, 30].reverse, s2) ∧
      is_stack_empty s2 = true ∧ stack_size s2 = 0 :=
  ⟨by decide, array_stack_lifo (fun _ => 0) [10, 20, 30] (by decide)⟩

/-- C5: on a full array-backed stack (`top + 1 = capacity`) `push` returns 0 and the
stack afterwards is the stack before: `top`, `capacity` and the whole buffer are
unchanged, and so is `stack_size`. -/
theorem push_full_no_mutation (s : Stack) (v : Int) (h : s.top + 1 = s.capacity) :
    push s v = some (0, s) ∧
      ∀ r s1, push s v = some (r, s1) →
        r = 0 ∧ s1.top = s.top ∧ s1.capacity = s.capacity ∧ s1.data = s.data ∧
          stack_size s1 = stack_size s := by
  have hfull : is_stack_full s = true := by
    simp only [is_stack_full, decide_eq_true_eq]
    omega
  have hp : push s v = some (0, s) := by simp [push, hfull]
  refine ⟨hp, ?_⟩
  intro r s1 h1
  rw [hp] at h1
  simp only [Option.some.injEq, Prod.mk.injEq] at h1
  obtain ⟨rfl, rfl⟩ := h1
  exact ⟨rfl, rfl, rfl, rfl, rfl⟩

theorem push_full_no_mutation_witness :
    (99 : Int) + 1 = 100 ∧
    push { data := fun i => i, top := 99, capacity := 100 } 7
      = some (0, { data := fun i => i, top := 99, capacity := 100 }) :=
  ⟨by decide,
    (push_full_no_mutation { data := fun i => i, top := 99, capacity := 100 } 7 (by decide)).1⟩

/-! ## Node-backed stack: theorems -/

theorem push_linked_all_spec (s : LinkedStack) (vs : List Int) :
    (push_linked_all s vs).1 = List.replicate vs.length 1 ∧
      stack_values (push_linked_all s vs).2.top = vs.reverse ++ stack_values s.top ∧
      (push_linked_all s vs).2.size = s.size + vs.length := by
  induction vs generalizing s with
  | nil => simp [push_linked_all]
  | cons v vs ih =>
    obtain ⟨h1, h2, h3⟩ := ih (push_linked s v true).2
    simp only [push_linked_all, h1, h2, h3]
    refine ⟨by simp [push_linked, List.replicate_succ], by simp [push_linked, stack_values], ?_⟩
    simp only [push_linked, if_true, List.length_cons]
    push_cast
    omega

theorem pop_linked_times_spec (s : LinkedStack) (vs rest : List Int)
    (h : stack_values s.top = vs ++ rest) :
    (pop_linked_times s vs.length).1 = vs ∧
      stack_values (pop_linked_times s vs.length).2.top = rest ∧
      (pop_linked_times s vs.length).2.size = s.size - vs.length := by
  induction vs generalizing s with
  | nil => simpa [pop_linked_times] using h
  | cons v vs ih =>
    obtain ⟨top, size⟩ := s
    cases top with
    | null => simp [stack_values] at h
    | node d n =>
      simp only [stack_values, List.cons_append, List.cons.injEq] at h
      obtain ⟨rfl, hn⟩ := h
      obtain ⟨h1, h2, h3⟩ := ih { top := n, size := size - 1 } hn
      simp only [List.length_cons, pop_linked_times, pop_linked, h1, h2, h3]
      refine ⟨trivial, trivial, ?_⟩
      push_cast
      omega

theorem stack_values_eq_nil {p : StackNodePtr} (h : stack_values p = []) : p = .null := by
  cases p with
  | null => rfl
  | node d n => simp [stack_values] at h

/-- C2: pushing any list of integers on a fresh node-backed stack (allocations
succeeding) returns 1 at every `push_linked`, and calling `pop_linked` as many times then
returns the list reversed and leaves the stack empty with `linked_stack_size` 0. -/
theorem linked_stack_lifo (vs : List Int) :
    (push_linked_all create_linked_stack vs).1 = List.replicate vs.length 1 ∧
      (pop_linked_times (push_linked_all create_linked_stack vs).2 vs.length).1
        = vs.reverse ∧
      is_linked_stack_empty
        (pop_linked_times (push_linked_all create_linked_stack vs).2 vs.length).2 = true ∧
      linked_stack_size
        (pop_linked_times (push_linked_all create_linked_stack vs).2 vs.length).2 = 0 := by
  obtain ⟨h1, h2, h3⟩ := push_linked_all_spec create_linked_stack vs
  have h2a : stack_values (push_linked_all create_linked_stack vs).2.top = vs.reverse ++ [] := by
    simpa [create_linked_stack, stack_values] using h2
  obtain ⟨k1, k2, k3⟩ := pop_linked_times_spec _ vs.reverse [] h2a
  rw [List.length_reverse] at k1 k2 k3
  refine ⟨h1, k1, ?_, ?_⟩
  · have := stack_values_eq_nil k2
    simp [is_linked_stack_empty, this]
  · rw [linked_stack_size, k3, h3]
    simp [create_linked_stack]

/-! ## Circular array queue: theorems -/

theorem queueHolds_create (uninit : Buffer) : QueueHolds (create_queue uninit) [] := by
  refine ⟨rfl, rfl, by simp, ?_, ?_, ?_, ?_, ?_, ?_⟩ <;> simp [create_queue]

theorem c_mod_of_nonneg {a : Int} (h : 0 ≤ a) : c_mod a 100 = some (a % 100) := by
  simp only [c_mod]
  rw [if_neg (by decide), Int.tmod_eq_emod h (by decide)]

theorem queueHolds_enqueue {q : Queue} {l : List Int} (h : QueueHolds q l) (v : Int)
    (hlt : l.length < 100) :
    ∃ q1, enqueue q v = some (1, q1) ∧ QueueHolds q1 (l ++ [v]) := by
  obtain ⟨hc, hs, _, hf0, hf1, hr0, hr1, hrf, hd⟩ := h
  have hfull : is_queue_full q = false := by
    simp only [is_queue_full, decide_eq_false_iff_not]
    omega
  have hm : c_mod (q.rear + 1) q.capacity = some ((q.rear + 1) % 100) := by
    rw [hc]
    exact c_mod_of_nonneg (by omega)
  have hw : buf_write MAX_QUEUE_SIZE q.data ((q.rear + 1) % 100) v
      = some (Function.update q.data ((q.rear + 1) % 100).toNat v) := by
    simp only [buf_write, MAX_QUEUE_SIZE]
    rw [if_pos]
    omega
  refine ⟨{ q with data := Function.update q.data ((q.rear + 1) % 100).toNat v,
                   rear := (q.rear + 1) % 100, size := q.size + 1 }, ?_, ?_⟩
  · simp [enqueue, hfull, hm, hw]
  · have hidx : ((q.rear + 1) % 100).toNat = (q.front.toNat + l.length) % 100 := by omega
    refine ⟨hc, ?_, ?_, hf0, hf1, ?_, ?_, ?_, ?_⟩
    · simp only [List.length_append, List.length_singleton]
      push_cast
      omega
    · simp only [List.length_append, List.length_singleton]
      omega
    · dsimp only
      omega
    · dsimp only
      omega
    · simp only [List.length_append, List.length_singleton]
      push_cast
      omega
    · intro i hi
      simp only [List.length_append, List.length_singleton] at hi
      dsimp only
      rw [hidx]
      by_cases hil : i = l.length
      · subst hil
        simp
      · have hi2 : i < l.length := by omega
        have hne : (q.front.toNat + i) % 100 ≠ (q.front.toNat + l.length) % 100 := by omega
        rw [List.getElem?_append_left hi2, Function.update_noteq hne]
        exact hd i hi2

theorem queueHolds_dequeue {q : Queue} {x : Int} {l : List Int} (h : QueueHolds q (x :: l)) :
    ∃ q1, dequeue q = some (x, q1) ∧ QueueHolds q1 l := by
  obtain ⟨hc, hs, hle, hf0, hf1, hr0, hr1, hrf, hd⟩ := h
  simp only [List.length_cons] at hs hle hrf hd
  push_cast at hs hrf
  have hemp : is_queue_empty q = false := by
    simp only [is_queue_empty, decide_eq_false_iff_not]
    omega
  have hx : q.data q.front.toNat = x := by
    have := hd 0 (by omega)
    have h100 : (q.front.toNat + 0) % 100 = q.front.toNat := by omega
    rw [h100] at this
    simpa using this.symm
  have hr : buf_read MAX_QUEUE_SIZE q.data q.front = some x := by
    simp only [buf_read, MAX_QUEUE_SIZE]
    rw [if_pos (by omega), hx]
  have hm : c_mod (q.front + 1) q.capacity = some ((q.front + 1) % 100) := by
    rw [hc]
    exact c_mod_of_nonneg (by omega)
  refine ⟨{ q with front := (q.front + 1) % 100, size := q.size - 1 }, ?_, ?_⟩
  · simp [dequeue, hemp, hr, hm]
  · refine ⟨hc, ?_, by omega, ?_, ?_, hr0, hr1, ?_, ?_⟩
    · dsimp only
      omega
    · dsimp only
      omega
    · dsimp only
      omega
    · dsimp only
      omega
    · intro i hi
      have := hd (i + 1) (by omega)
      rw [List.getElem?_cons_succ] at this
      have hidx : (((q.front + 1) % 100).toNat + i) % 100 = (q.front.toNat + (i + 1)) % 100 := by
        omega
      dsimp only
      rw [hidx]
      exact this

theorem queueHolds_enqueue_full {q : Queue} {l : List Int} (h : QueueHolds q l) (v : Int)
    (hge : ¬ l.length < 100) : enqueue q v = some (0, q) := by
  obtain ⟨hc, hs, hle, _⟩ := h
  have hfull : is_queue_full q = true := by
    simp only [is_queue_full, decide_eq_true_eq]
    omega
  simp [enqueue, hfull]

theorem queueHolds_dequeue_empty {q : Queue} (h : QueueHolds q []) :
    dequeue q = some (-1, q) := by
  obtain ⟨_, hs, _⟩ := h
  have hemp : is_queue_empty q = true := by
    simpa [is_queue_empty] using hs
  simp [dequeue, hemp]

theorem queueHolds_run {q : Queue} {l : List Int} (h : QueueHolds q l) (ops : List QueueOp) :
    ∃ q1, run_queue q ops = some ((run_bounded_fifo 100 l ops).1, q1) ∧
      QueueHolds q1 (run_bounded_fifo 100 l ops).2 := by
  induction ops generalizing q l with
  | nil => exact ⟨q, rfl, h⟩
  | cons op ops ih =>
    cases op with
    | enq v =>
      by_cases hlt : l.length < 100
      · obtain ⟨q1, he, h1⟩ := queueHolds_enqueue h v hlt
        obtain ⟨q2, hrun, h2⟩ := ih h1
        refine ⟨q2, ?_, ?_⟩
        · simp [run_queue, he, hrun, run_bounded_fifo, bounded_fifo_step, hlt]
        · simpa [run_bounded_fifo, bounded_fifo_step, hlt] using h2
      · have he := queueHolds_enqueue_full h v hlt
        obtain ⟨q2, hrun, h2⟩ := ih h
        refine ⟨q2, ?_, ?_⟩
        · simp [run_queue, he, hrun, run_bounded_fifo, bounded_fifo_step, hlt]
        · simpa [run_bounded_fifo, bounded_fifo_step, hlt] using h2
    | deq =>
      cases l with
      | nil =>
        have he := queueHolds_dequeue_empty h
        obtain ⟨q2, hrun, h2⟩ := ih h
        refine ⟨q2, ?_, ?_⟩
        · simp [run_queue, he, hrun, run_bounded_fifo, bounded_fifo_step]
        · simpa [run_bounded_fifo, bounded_fifo_step] using h2
      | cons x l =>
        obtain ⟨q1, he, h1⟩ := queueHolds_dequeue h
        obtain ⟨q2, hrun, h2⟩ := ih h1
        refine ⟨q2, ?_, ?_⟩
        · simp [run_queue, he, hrun, run_bounded_fifo, bounded_fifo_step]
        · simpa [run_bounded_fifo, bounded_fifo_step] using h2

/-- C3: every finite sequence of `enqueue` / `dequeue` calls on a queue from
`create_queue` runs without an out-of-bounds access and returns, call by call, exactly
what the reference FIFO list bounded at capacity 100 returns; the queue afterwards holds
the list the reference holds, in the slots from `front` on, modulo 100. -/
theorem circular_queue_refines_bounded_fifo (uninit : Buffer) (ops : List QueueOp) :
    ∃ q1, run_queue (create_queue uninit) ops = some ((run_bounded_fifo 100 [] ops).1, q1) ∧
      QueueHolds q1 (run_bounded_fifo 100 [] ops).2 :=
  queueHolds_run (queueHolds_create uninit) ops

/-- C6: on a full circular queue (`size = capacity`) `enqueue` returns 0 and the queue
afterwards is the queue before: `front`, `rear`, `size`, `capacity` and the whole buffer
are unchanged. -/
theorem enqueue_full_no_mutation (q : Queue) (v : Int) (h : q.size = q.capacity) :
    enqueue q v = some (0, q) ∧
      ∀ r q1, enqueue q v = some (r, q1) →
        r = 0 ∧ q1.front = q.front ∧ q1.rear = q.rear ∧ q1.size = q.size ∧
          q1.capacity = q.capacity ∧ q1.data = q.data := by
  have hfull : is_queue_full q = true := by
    simpa [is_queue_full] using h
  have hp : enqueue q v = some (0, q) := by simp [enqueue, hfull]
  refine ⟨hp, ?_⟩
  intro r q1 h1
  rw [hp] at h1
  simp only [Option.some.injEq, Prod.mk.injEq] at h1
  obtain ⟨rfl, rfl⟩ := h1
  exact ⟨rfl, rfl, rfl, rfl, rfl, rfl⟩

theorem enqueue_full_no_mutation_witness :
    (100 : Int) = 100 ∧
    enqueue { data := fun i => i, front := 3, rear := 2, size := 100, capacity := 100 } 7
      = some (0, { data := fun i => i, front := 3, rear := 2, size := 100, capacity := 100 }) :=
  ⟨rfl, (enqueue_full_no_mutation
    { data := fun i => i, front := 3, rear := 2, size := 100, capacity := 100 } 7 rfl).1⟩

/-! ## Node-backed queue: theorems -/

theorem heap_lt_of_getElem? {heap : QueueHeap} {a : Nat} {c : Option QueueNode}
    (h : heap[a]? = some c) : a < heap.length := by
  by_contra hge
  rw [List.getElem?_eq_none (by omega)] at h
  cases h

theorem queueChain_addr_lt {heap : QueueHeap} {p : Option Nat} {cells : List (Nat × Int)}
    (h : QueueChain heap p cells) : ∀ a ∈ cells.map Prod.fst, a < heap.length := by
  induction cells generalizing p with
  | nil => simp
  | cons c rest ih =>
    obtain ⟨a, v⟩ := c
    obtain ⟨_, nx, hcell, hrest⟩ := h
    intro b hb
    simp only [List.map_cons, List.mem_cons] at hb
    rcases hb with rfl | hb
    · exact heap_lt_of_getElem? hcell
    · exact ih hrest b hb

theorem queueChain_heap_append {heap : QueueHeap} {p : Option Nat} {cells : List (Nat × Int)}
    (h : QueueChain heap p cells) (extra : QueueHeap) : QueueChain (heap ++ extra) p cells := by
  induction cells generalizing p with
  | nil => exact h
  | cons c rest ih =>
    obtain ⟨a, v⟩ := c
    obtain ⟨hp, nx, hcell, hrest⟩ := h
    refine ⟨hp, nx, ?_, ih hrest⟩
    rw [List.getElem?_append_left (heap_lt_of_getElem? hcell)]
    exact hcell

theorem queueChain_set_other {heap : QueueHeap} {p : Option Nat} {cells : List (Nat × Int)}
    (h : QueueChain heap p cells) (a : Nat) (c : Option QueueNode)
    (ha : a ∉ cells.map Prod.fst) : QueueChain (heap.set a c) p cells := by
  induction cells generalizing p with
  | nil => exact h
  | cons c1 rest ih =>
    obtain ⟨b, v⟩ := c1
    obtain ⟨hp, nx, hcell, hrest⟩ := h
    simp only [List.map_cons, List.mem_cons, not_or] at ha
    refine ⟨hp, nx, ?_, ih hrest ha.2⟩
    rw [List.getElem?_set_ne ha.1]
    exact hcell

theorem queueChain_last_cell {heap : QueueHeap} {p : Option Nat} {cs : List (Nat × Int)}
    {r : Nat} {x : Int} (h : QueueChain heap p (cs ++ [(r, x)])) :
    heap[r]? = some (some { data := x, next := none }) := by
  induction cs generalizing p with
  | nil =>
    obtain ⟨_, nx, hcell, hrest⟩ := h
    have : nx = none := hrest
    rw [this] at hcell
    exact hcell
  | cons c rest ih =>
    obtain ⟨b, v⟩ := c
    obtain ⟨_, nx, _, hrest⟩ := h
    exact ih hrest

theorem queueChain_link_last {heap : QueueHeap} {p : Option Nat} {cs : List (Nat × Int)}
    {r : Nat} {x : Int} (h : QueueChain heap p (cs ++ [(r, x)]))
    (hnd : ((cs ++ [(r, x)]).map Prod.fst).Nodup) (new_node : Nat) (v : Int)
    (hnew : heap[new_node]? = some (some { data := v, next := none }))
    (hfresh : new_node ∉ (cs ++ [(r, x)]).map Prod.fst) :
    QueueChain (heap.set r (some { data := x, next := some new_node })) p
      (cs ++ [(r, x), (new_node, v)]) := by
  induction cs generalizing p with
  | nil =>
    obtain ⟨hp, nx, hcell, _⟩ := h
    simp only [List.nil_append, List.map_cons, List.map_nil, List.mem_singleton] at hfresh
    refine ⟨hp, some new_node, ?_, rfl, none, ?_, rfl⟩
    · rw [List.getElem?_set_self (heap_lt_of_getElem? hcell)]
    · rw [List.getElem?_set_ne (Ne.symm hfresh)]
      exact hnew
  | cons c rest ih =>
    obtain ⟨b, w⟩ := c
    obtain ⟨hp, nx, hcell, hrest⟩ := h
    simp only [List.cons_append, List.map_cons, List.nodup_cons] at hnd
    simp only [List.cons_append, List.map_cons, List.mem_cons, not_or] at hfresh
    have hbr : r ≠ b := by
      intro hrb
      apply hnd.1
      rw [← hrb]
      simp
    refine ⟨hp, nx, ?_, ih hrest hnd.2 hfresh.2⟩
    rw [List.getElem?_set_ne hbr]
    exact hcell

theorem linkedQueueHolds_create (heap : QueueHeap) :
    LinkedQueueHolds heap create_linked_queue [] :=
  ⟨[], rfl, rfl, List.nodup_nil, rfl, rfl⟩

theorem linkedQueueHolds_enqueue {heap : QueueHeap} {q : LinkedQueue} {l : List Int}
    (h : LinkedQueueHolds heap q l) (v : Int) :
    ∃ h1 q1, enqueue_linked heap q v true = some (1, h1, q1) ∧
      LinkedQueueHolds h1 q1 (l ++ [v]) := by
  obtain ⟨cells, hvals, hchain, hnd, hrear, hsize⟩ := h
  have hlen : (l ++ [v]).length = l.length + 1 := by simp
  have hnewcell : (heap ++ [some ({ data := v, next := none } : QueueNode)])[heap.length]?
      = some (some { data := v, next := none }) := List.getElem?_concat_length _ _
  rcases List.eq_nil_or_concat cells with hnil | ⟨cs, c, hcs⟩
  · subst hnil
    have hfront : q.front = none := hchain
    refine ⟨heap ++ [some { data := v, next := none }],
      { front := some heap.length, rear := some heap.length, size := q.size + 1 },
      ?_, [(heap.length, v)], ?_, ?_, ?_, ?_, ?_⟩
    · simp only [enqueue_linked, is_linked_queue_empty, hfront, Option.isNone_none, if_true]
    · simpa using hvals
    · exact ⟨rfl, none, hnewcell, rfl⟩
    · simp
    · rfl
    · show q.size + 1 = _
      rw [hlen, hsize]
      push_cast
      rfl
  · obtain ⟨r, x⟩ := c
    rw [List.concat_eq_append] at hcs
    subst hcs
    have hlast := queueChain_last_cell hchain
    have hrear1 : q.rear = some r := by
      rw [hrear, List.getLast?_concat]
      rfl
    have hfront : q.front.isNone = false := by
      cases cs with
      | nil => rw [hchain.1]; rfl
      | cons c0 cs0 => rw [hchain.1]; rfl
    have hfresh : heap.length ∉ (cs ++ [(r, x)]).map Prod.fst := by
      intro hmem
      exact Nat.lt_irrefl _ (queueChain_addr_lt hchain _ hmem)
    have hlast1 : (heap ++ [some ({ data := v, next := none } : QueueNode)])[r]?
        = some (some { data := x, next := none }) := by
      rw [List.getElem?_append_left (heap_lt_of_getElem? hlast)]
      exact hlast
    have hchain1 := queueChain_link_last
      (queueChain_heap_append hchain [some ({ data := v, next := none } : QueueNode)])
      hnd heap.length v hnewcell hfresh
    refine ⟨(heap ++ [some ({ data := v, next := none } : QueueNode)]).set r
        (some { data := x, next := some heap.length }),
      { q with rear := some heap.length, size := q.size + 1 },
      ?_, cs ++ [(r, x), (heap.length, v)], ?_, hchain1, ?_, ?_, ?_⟩
    · simp only [enqueue_linked, is_linked_queue_empty, hfront, hrear1, deref, hlast1, if_true]
      rfl
    · rw [← hvals]
      simp
    · have : (cs ++ [(r, x), (heap.length, v)]).map Prod.fst
          = (cs ++ [(r, x)]).map Prod.fst ++ [heap.length] := by simp
      rw [this]
      exact List.Nodup.append hnd (List.nodup_singleton _) (by simpa using hfresh)
    · have : cs ++ [(r, x), (heap.length, v)] = (cs ++ [(r, x)]) ++ [(heap.length, v)] := by simp
      rw [this, List.getLast?_concat]
      rfl
    · show q.size + 1 = _
      rw [hlen, hsize]
      push_cast
      rfl

theorem linkedQueueHolds_dequeue {heap : QueueHeap} {q : LinkedQueue} {x : Int} {l : List Int}
    (h : LinkedQueueHolds heap q (x :: l)) :
    ∃ h1 q1, dequeue_linked heap q = some (x, h1, q1) ∧ LinkedQueueHolds h1 q1 l := by
  obtain ⟨cells, hvals, hchain, hnd, hrear, hsize⟩ := h
  cases cells with
  | nil => simp at hvals
  | cons c rest =>
    obtain ⟨a, w⟩ := c
    simp only [List.map_cons, List.cons.injEq] at hvals
    obtain ⟨rfl, hvals⟩ := hvals
    obtain ⟨hfront, nx, hcell, hrest⟩ := hchain
    simp only [List.map_cons, List.nodup_cons] at hnd
    have hsize1 : q.size - 1 = l.length := by
      rw [hsize]
      simp
    have hchain1 : QueueChain (heap.set a none) nx rest :=
      queueChain_set_other hrest a none hnd.1
    cases rest with
    | nil =>
      have hnx : nx = none := hrest
      refine ⟨heap.set a none, { front := none, rear := none, size := q.size - 1 },
        ?_, [], hvals, ?_, List.nodup_nil, ?_, hsize1⟩
      · simp only [dequeue_linked, is_linked_queue_empty, hfront, deref, hcell, hnx]
        rfl
      · rfl
      · rfl
    | cons c1 rest1 =>
      obtain ⟨b, u⟩ := c1
      have hnx : nx = some b := hrest.1
      refine ⟨heap.set a none, { front := some b, rear := q.rear, size := q.size - 1 },
        ?_, (b, u) :: rest1, hvals, ?_, hnd.2, ?_, hsize1⟩
      · simp only [dequeue_linked, is_linked_queue_empty, hfront, deref, hcell, hnx]
        rfl
      · rw [← hnx]
        exact hchain1
      · show q.rear = _
        rw [hrear, List.getLast?_cons_cons]

theorem linkedQueueHolds_dequeue_empty {heap : QueueHeap} {q : LinkedQueue}
    (h : LinkedQueueHolds heap q []) : dequeue_linked heap q = some (-1, heap, q) := by
  obtain ⟨cells, hvals, hchain, _⟩ := h
  have hnil : cells = [] := by simpa using hvals
  subst hnil
  have hfront : q.front = none := hchain
  simp [dequeue_linked, is_linked_queue_empty, hfront]

theorem linkedQueueHolds_run {heap : QueueHeap} {q : LinkedQueue} {l : List Int}
    (h : LinkedQueueHolds heap q l) (ops : List QueueOp) :
    ∃ h1 q1, run_linked_queue heap q ops = some ((run_fifo l ops).1, h1, q1) ∧
      LinkedQueueHolds h1 q1 (run_fifo l ops).2 := by
  induction ops generalizing heap q l with
  | nil => exact ⟨heap, q, rfl, h⟩
  | cons op ops ih =>
    cases op with
    | enq v =>
      obtain ⟨h1, q1, he, hh1⟩ := linkedQueueHolds_enqueue h v
      obtain ⟨h2, q2, hrun, hh2⟩ := ih hh1
      refine ⟨h2, q2, ?_, ?_⟩
      · simp [run_linked_queue, he, hrun, run_fifo, fifo_step]
      · simpa [run_fifo, fifo_step] using hh2
    | deq =>
      cases l with
      | nil =>
        have he := linkedQueueHolds_dequeue_empty h
        obtain ⟨h2, q2, hrun, hh2⟩ := ih h
        refine ⟨h2, q2, ?_, ?_⟩
        · simp [run_linked_queue, he, hrun, run_fifo, fifo_step]
        · simpa [run_fifo, fifo_step] using hh2
      | cons x l =>
        obtain ⟨h1, q1, he, hh1⟩ := linkedQueueHolds_dequeue h
        obtain ⟨h2, q2, hrun, hh2⟩ := ih hh1
        refine ⟨h2, q2, ?_, ?_⟩
        · simp [run_linked_queue, he, hrun, run_fifo, fifo_step]
        · simpa [run_fifo, fifo_step] using hh2

theorem run_fifo_enq_all (l vs : List Int) (ops : List QueueOp) :
    run_fifo l (vs.map QueueOp.enq ++ ops)
      = (List.replicate vs.length 1 ++ (run_fifo (l ++ vs) ops).1, (run_fifo (l ++ vs) ops).2) := by
  induction vs generalizing l with
  | nil => simp
  | cons v vs ih =>
    have h := ih (l ++ [v])
    rw [List.append_assoc, List.singleton_append] at h
    show (1 :: (run_fifo (l ++ [v]) (vs.map QueueOp.enq ++ ops)).1,
      (run_fifo (l ++ [v]) (vs.map QueueOp.enq ++ ops)).2) = _
    rw [h]
    rfl

theorem run_fifo_deq_all (l : List Int) :
    run_fifo l (List.replicate l.length QueueOp.deq) = (l, []) := by
  induction l with
  | nil => rfl
  | cons x l ih =>
    simp only [List.length_cons, List.replicate_succ, run_fifo, fifo_step, ih]

/-- C4: every finite sequence of `enqueue_linked` / `dequeue_linked` calls on a queue
from `create_linked_queue` (allocations succeeding) runs without dereferencing an invalid
pointer and returns, call by call, what the unbounded reference FIFO list returns (1 for
every enqueue; the oldest stored element, or -1 when empty, for a dequeue); in particular
enqueuing a list and dequeuing as many times returns the list in its original order. -/
theorem linked_queue_refines_fifo (heap : QueueHeap) (ops : List QueueOp) (vs : List Int) :
    (∃ h1 q1, run_linked_queue heap create_linked_queue ops
        = some ((run_fifo [] ops).1, h1, q1) ∧
      LinkedQueueHolds h1 q1 (run_fifo [] ops).2) ∧
    (∃ h1 q1, run_linked_queue heap create_linked_queue
        (vs.map QueueOp.enq ++ List.replicate vs.length QueueOp.deq)
        = some (List.replicate vs.length 1 ++ vs, h1, q1) ∧
      LinkedQueueHolds h1 q1 []) := by
  refine ⟨linkedQueueHolds_run (linkedQueueHolds_create heap) ops, ?_⟩
  obtain ⟨h1, q1, hrun, hh⟩ := linkedQueueHolds_run (linkedQueueHolds_create heap)
    (vs.map QueueOp.enq ++ List.replicate vs.length QueueOp.deq)
  rw [run_fifo_enq_all, List.nil_append, run_fifo_deq_all] at hrun hh
  exact ⟨h1, q1, hrun, hh⟩

/-! ## Removal from an empty container -/

/-- C7: on an empty container `pop`, `pop_linked`, `dequeue`, `dequeue_linked` and
`delete_from_beginning` return -1 and leave the container as it was, so a size query that
returned 0 before returns 0 afterwards; this holds in particular for the containers
returned by `create_stack`, `create_linked_stack`, `create_queue`, `create_linked_queue`
and `create_list`, whose size queries return 0. -/
theorem remove_from_empty :
    (∀ s : Stack, is_stack_empty s = true → pop s = some (-1, s) ∧ stack_size s = 0) ∧
    (∀ s : LinkedStack, is_linked_stack_empty s = true → pop_linked s = (-1, s) ∧
      (linked_stack_size s = 0 → linked_stack_size (pop_linked s).2 = 0)) ∧
    (∀ q : Queue, is_queue_empty q = true → dequeue q = some (-1, q) ∧ queue_size q = 0) ∧
    (∀ (heap : QueueHeap) (q : LinkedQueue), is_linked_queue_empty q = true →
      dequeue_linked heap q = some (-1, heap, q) ∧
      (linked_queue_size q = 0 → ∀ r h1 q1, dequeue_linked heap q = some (r, h1, q1) →
        linked_queue_size q1 = 0)) ∧
    (∀ l : LinkedList, is_empty l = true → delete_from_beginning l = (-1, l) ∧
      (get_size l = 0 → get_size (delete_from_beginning l).2 = 0)) ∧
    (∀ uninit : Buffer, is_stack_empty (create_stack uninit) = true) ∧
    (is_linked_stack_empty create_linked_stack = true ∧
      linked_stack_size create_linked_stack = 0) ∧
    (∀ uninit : Buffer, is_queue_empty (create_queue uninit) = true) ∧
    (is_linked_queue_empty create_linked_queue = true ∧
      linked_queue_size create_linked_queue = 0) ∧
    (is_empty create_list = true ∧ get_size create_list = 0) := by
  refine ⟨?_, ?_, ?_, ?_, ?_, ?_, ⟨rfl, rfl⟩, ?_, ⟨rfl, rfl⟩, ⟨rfl, rfl⟩⟩
  · intro s h
    refine ⟨by simp [pop, h], ?_⟩
    simp only [is_stack_empty, decide_eq_true_eq] at h
    simp [stack_size, h]
  · intro s h
    obtain ⟨top, size⟩ := s
    cases top with
    | null => exact ⟨rfl, fun h0 => h0⟩
    | node d n => simp [is_linked_stack_empty] at h
  · intro q h
    refine ⟨by simp [dequeue, h], ?_⟩
    simpa [is_queue_empty] using h
  · intro heap q h
    have hd : dequeue_linked heap q = some (-1, heap, q) := by simp [dequeue_linked, h]
    refine ⟨hd, ?_⟩
    intro h0 r h1 q1 hr
    rw [hd] at hr
    simp only [Option.some.injEq, Prod.mk.injEq] at hr
    rw [← hr.2.2]
    exact h0
  · intro l h
    obtain ⟨head, size⟩ := l
    cases head with
    | null => exact ⟨rfl, fun h0 => h0⟩
    | node d n => simp [is_empty] at h
  · intro uninit
    simp [is_stack_empty, create_stack]
  · intro uninit
    simp [is_queue_empty, create_queue]

theorem remove_from_empty_witness :
    pop (create_stack (fun _ => 0)) = some (-1, create_stack (fun _ => 0)) ∧
    stack_size (create_stack (fun _ => 0)) = 0 ∧
    pop_linked create_linked_stack = (-1, create_linked_stack) ∧
    dequeue (create_queue (fun _ => 0)) = some (-1, create_queue (fun _ => 0)) ∧
    queue_size (create_queue (fun _ => 0)) = 0 ∧
    dequeue_linked [] create_linked_queue = some (-1, [], create_linked_queue) ∧
    delete_from_beginning create_list = (-1, create_list) :=
  ⟨(remove_from_empty.1 _ (remove_from_empty.2.2.2.2.2.1 _)).1,
   (remove_from_empty.1 _ (remove_from_empty.2.2.2.2.2.1 _)).2,
   (remove_from_empty.2.1 _ remove_from_empty.2.2.2.2.2.2.1.1).1,
   (remove_from_empty.2.2.1 _ (remove_from_empty.2.2.2.2.2.2.2.1 _)).1,
   (remove_from_empty.2.2.1 _ (remove_from_empty.2.2.2.2.2.2.2.1 _)).2,
   (remove_from_empty.2.2.2.1 [] _ remove_from_empty.2.2.2.2.2.2.2.2.1.1).1,
   (remove_from_empty.2.2.2.2.1 _ remove_from_empty.2.2.2.2.2.2.2.2.2.1).1⟩

/-! ## `peek` against `pop` -/

/-- C8 as stated fails outside the buffer: with `top = 100` the stack is not empty and
both `peek` and `pop` read `data[100]`, which is no slot of the 100-slot buffer, so
neither returns a buffer element and nothing makes their results equal. -/
theorem peek_agrees_with_pop_counterexample :
    is_stack_empty { data := fun i => i, top := 100, capacity := 100 } = false ∧
    buf_read MAX_STACK_SIZE (fun i => i) 100 = none ∧
    peek { data := fun i => i, top := 100, capacity := 100 } = none ∧
    pop { data := fun i => i, top := 100, capacity := 100 } = none :=
  ⟨rfl, rfl, rfl, rfl⟩

/-- C8, amended: for every array-backed stack state with `top` from -1 up to 99, `peek`
leaves the stack as it was and returns exactly the value `pop` returns from that state:
`data[top]` when the stack is not empty, -1 when it is empty.  For every node-backed
stack, `peek_linked` leaves the stack as it was and returns the value `pop_linked`
returns: the data of the top node, or -1 on an empty stack. -/
theorem peek_agrees_with_pop (s : Stack) (ls : LinkedStack) (h0 : -1 ≤ s.top)
    (h1 : s.top < 100) :
    (∃ v s1, peek s = some (v, s) ∧ pop s = some (v, s1) ∧
      (is_stack_empty s = true → v = -1 ∧ s1 = s) ∧
      (is_stack_empty s = false →
        v = s.data s.top.toNat ∧ s1 = { s with top := s.top - 1 })) ∧
    (peek_linked ls = ((pop_linked ls).1, ls) ∧
      (is_linked_stack_empty ls = true → peek_linked ls = (-1, ls)) ∧
      (∀ (d : Int) (n : StackNodePtr), ls.top = .node d n → peek_linked ls = (d, ls))) := by
  constructor
  · by_cases he : s.top = -1
    · have hemp : is_stack_empty s = true := by simp [is_stack_empty, he]
      refine ⟨-1, s, by simp [peek, hemp], by simp [pop, hemp], fun _ => ⟨rfl, rfl⟩, ?_⟩
      intro hne
      rw [hemp] at hne
      cases hne
    · have hemp : is_stack_empty s = false := by simp [is_stack_empty, he]
      have hr : buf_read MAX_STACK_SIZE s.data s.top = some (s.data s.top.toNat) := by
        simp only [buf_read, MAX_STACK_SIZE]
        rw [if_pos (by omega)]
      refine ⟨s.data s.top.toNat, { s with top := s.top - 1 }, by simp [peek, hemp, hr],
        by simp [pop, hemp, hr], ?_, fun _ => ⟨rfl, rfl⟩⟩
      intro hyes
      rw [hemp] at hyes
      cases hyes
  · obtain ⟨top, size⟩ := ls
    cases top with
    | null =>
      refine ⟨rfl, fun _ => rfl, ?_⟩
      intro d n hdn
      cases hdn
    | node d n =>
      refine ⟨rfl, ?_, ?_⟩
      · intro hemp
        simp [is_linked_stack_empty] at hemp
      · intro d1 n1 hdn
        simp only [StackNodePtr.node.injEq] at hdn
        rw [← hdn.1]
        rfl

theorem peek_agrees_with_pop_witness :
    (-1 : Int) ≤ 2 ∧ (2 : Int) < 100 ∧
    (∃ v s1, peek { data := fun i => 10 * i, top := 2, capacity := 100 }
        = some (v, { data := fun i => 10 * i, top := 2, capacity := 100 }) ∧
      pop { data := fun i => 10 * i, top := 2, capacity := 100 } = some (v, s1) ∧ v = 20) ∧
    peek_linked { top := .node 7 (.node 8 .null), size := 2 }
      = (7, { top := .node 7 (.node 8 .null), size := 2 }) ∧
    (pop_linked { top := .node 7 (.node 8 .null), size := 2 }).1 = 7 := by
  have h := peek_agrees_with_pop { data := fun i => 10 * i, top := 2, capacity := 100 }
    { top := .node 7 (.node 8 .null), size := 2 } (by decide) (by decide)
  obtain ⟨⟨v, s1, hpk, hpp, _, hne⟩, hlk, _, htop⟩ := h
  have hv : v = 20 := (hne rfl).1
  exact ⟨by decide, by decide, ⟨v, s1, hpk, hpp, hv⟩, htop 7 _ rfl, rfl⟩

/-! ## Linked list: insertion -/

theorem node_values_link_at_end (d : Int) (n new_node : NodePtr) :
    node_values (link_at_end d n new_node) = d :: node_values n ++ node_values new_node := by
  induction n generalizing d with
  | null => simp [link_at_end, node_values]
  | node d1 n1 ih => simp [link_at_end, node_values, ih]

theorem node_values_insert_at_beginning (list : LinkedList) (v : Int) :
    node_values (insert_at_beginning list v true).head = v :: node_values list.head ∧
      (insert_at_beginning list v true).size = list.size + 1 :=
  ⟨rfl, rfl⟩

theorem node_values_insert_at_end (list : LinkedList) (v : Int) :
    node_values (insert_at_end list v true).head = node_values list.head ++ [v] ∧
      (insert_at_end list v true).size = list.size + 1 := by
  obtain ⟨head, size⟩ := list
  cases head with
  | null => exact ⟨rfl, rfl⟩
  | node d n =>
    refine ⟨?_, rfl⟩
    simp [insert_at_end, node_values_link_at_end, node_values]

theorem splice_after_spec (current : NodePtr) (k : Nat) (v : Int)
    (hk : k < (node_values current).length) :
    ∃ h, splice_after current k v = some h ∧
      node_values h = (node_values current).take (k + 1) ++ [v] ++
        (node_values current).drop (k + 1) := by
  induction current generalizing k with
  | null => simp [node_values] at hk
  | node d n ih =>
    cases k with
    | zero => exact ⟨_, rfl, by simp [node_values]⟩
    | succ k =>
      simp only [node_values, List.length_cons] at hk
      obtain ⟨h, hs, hv⟩ := ih k (by omega)
      refine ⟨.node d h, ?_, ?_⟩
      · simp [splice_after, hs]
      · simp [node_values, hv]

theorem search_loop_spec (current : NodePtr) (position : Int) (v : Int) :
    (v ∉ node_values current ∧ search_loop current position v = -1) ∨
    ∃ i : Nat, search_loop current position v = position + i ∧
      (node_values current)[i]? = some v ∧
      ∀ j : Nat, j < i → (node_values current)[j]? ≠ some v := by
  induction current generalizing position with
  | null => exact Or.inl ⟨by simp [node_values], rfl⟩
  | node d n ih =>
    by_cases hd : d = v
    · refine Or.inr ⟨0, ?_, ?_, ?_⟩
      · simp [search_loop, hd]
      · simp [node_values, hd]
      · intro j hj
        omega
    · rcases ih (position + 1) with ⟨hnot, hres⟩ | ⟨i, hres, hi, hmin⟩
      · refine Or.inl ⟨?_, ?_⟩
        · simp only [node_values, List.mem_cons, not_or]
          exact ⟨fun h => hd h.symm, hnot⟩
        · simp [search_loop, hd, hres]
      · refine Or.inr ⟨i + 1, ?_, ?_, ?_⟩
        · simp only [search_loop, if_neg hd, hres]
          push_cast
          omega
        · simpa [node_values] using hi
        · intro j hj
          cases j with
          | zero => simp [node_values, hd]
          | succ j =>
            simp only [node_values, List.getElem?_cons_succ]
            exact hmin j (by omega)

theorem search_eq_search_loop (list : LinkedList) (v : Int) :
    search list v = search_loop list.head 0 v := by
  obtain ⟨head, size⟩ := list
  cases head <;> rfl

/-- C12: `search` returns -1 when the value does not occur in the element sequence (so
on every empty list), and otherwise the smallest 0-based index at which it occurs; on
[10, 20, 25, 30, 40] the search for 25 returns 2 and the search for 99 returns -1. -/
theorem search_returns_first_match (list : LinkedList) (v : Int) :
    (v ∉ node_values list.head → search list v = -1) ∧
    (v ∈ node_values list.head →
      ∃ i : Nat, search list v = i ∧ (node_values list.head)[i]? = some v ∧
        ∀ j : Nat, j < i → (node_values list.head)[j]? ≠ some v) ∧
    (is_empty list = true → search list v = -1) ∧
    search { head := .node 10 (.node 20 (.node 25 (.node 30 (.node 40 .null)))), size := 5 } 25
      = 2 ∧
    search { head := .node 10 (.node 20 (.node 25 (.node 30 (.node 40 .null)))), size := 5 } 99
      = -1 := by
  refine ⟨?_, ?_, ?_, by decide, by decide⟩
  · intro hnot
    rw [search_eq_search_loop]
    rcases search_loop_spec list.head 0 v with ⟨_, hres⟩ | ⟨i, _, hi, _⟩
    · exact hres
    · exact absurd (List.getElem?_mem hi) hnot
  · intro hmem
    rw [search_eq_search_loop]
    rcases search_loop_spec list.head 0 v with ⟨hnot, _⟩ | ⟨i, hres, hi, hmin⟩
    · exact absurd hmem hnot
    · exact ⟨i, by simpa using hres, hi, hmin⟩
  · intro hemp
    obtain ⟨head, size⟩ := list
    cases head with
    | null => rfl
    | node d n => simp [is_empty] at hemp

theorem search_returns_first_match_witness :
    (7 : Int) ∈ node_values (.node 5 (.node 7 (.node 7 .null))) ∧
    ∃ i : Nat, search { head := .node 5 (.node 7 (.node 7 .null)), size := 3 } 7 = i ∧
      (node_values (.node 5 (.node 7 (.node 7 .null))))[i]? = some 7 ∧
      ∀ j : Nat, j < i → (node_values (.node 5 (.node 7 (.node 7 .null))))[j]? ≠ some 7 :=
  ⟨by decide, (search_returns_first_match
    { head := .node 5 (.node 7 (.node 7 .null)), size := 3 } 7).2.1 (by decide)⟩

/-! ## Linked list: reversal -/

theorem node_values_reverse_loop (prev current : NodePtr) :
    node_values (reverse_loop prev current)
      = (node_values current).reverse ++ node_values prev := by
  induction current generalizing prev with
  | null => simp [reverse_loop, node_values]
  | node d n ih => simp [reverse_loop, node_values, ih]

theorem node_values_injective {a b : NodePtr} (h : node_values a = node_values b) : a = b := by
  induction a generalizing b with
  | null =>
    cases b with
    | null => rfl
    | node d n => simp [node_values] at h
  | node d n ih =>
    cases b with
    | null => simp [node_values] at h
    | node d1 n1 =>
      simp only [node_values, List.cons.injEq] at h
      rw [h.1, ih h.2]

theorem node_values_reverse_list (list : LinkedList) :
    node_values (reverse_list list).head = (node_values list.head).reverse ∧
      (reverse_list list).size = list.size := by
  obtain ⟨head, size⟩ := list
  cases head with
  | null => exact ⟨rfl, rfl⟩
  | node d n =>
    refine ⟨?_, rfl⟩
    simp [reverse_list, node_values_reverse_loop, node_values]

/-- C13: applying `reverse_list` twice gives back the list it started from: the same
element sequence in the same order and the same `size`, also for the empty list and for
single-element lists. -/
theorem reverse_list_involution (list : LinkedList) :
    reverse_list (reverse_list list) = list ∧
    node_values (reverse_list (reverse_list list)).head = node_values list.head ∧
    get_size (reverse_list (reverse_list list)) = get_size list := by
  have hv : node_values (reverse_list (reverse_list list)).head = node_values list.head := by
    rw [(node_values_reverse_list _).1, (node_values_reverse_list _).1, List.reverse_reverse]
  have hs : (reverse_list (reverse_list list)).size = list.size := by
    rw [(node_values_reverse_list _).2, (node_values_reverse_list _).2]
  refine ⟨?_, hv, hs⟩
  have hh := node_values_injective hv
  cases hr : reverse_list (reverse_list list) with
  | mk head size =>
    rw [hr] at hh hs
    cases list with
    | mk head0 size0 =>
      simp only at hh hs
      rw [hh, hs]

/-! ## Linked list: deletion -/

theorem unlink_after_spec (current : NodePtr) (k : Nat)
    (hk : k + 1 < (node_values current).length) :
    ∃ x h, unlink_after current k = some (x, h) ∧
      (node_values current)[k + 1]? = some x ∧
      node_values h = (node_values current).eraseIdx (k + 1) := by
  induction current generalizing k with
  | null => simp [node_values] at hk
  | node d n ih =>
    cases k with
    | zero =>
      cases n with
      | null => simp [node_values] at hk
      | node d1 n1 =>
        exact ⟨d1, .node d n1, rfl, by simp [node_values], by simp [node_values]⟩
    | succ k =>
      simp only [node_values, List.length_cons] at hk
      obtain ⟨x, h, hu, hx, hv⟩ := ih k (by omega)
      refine ⟨x, .node d h, ?_, ?_, ?_⟩
      · simp [unlink_after, hu]
      · simpa [node_values] using hx
      · simp [node_values, hv]

theorem unlink_last_spec (d d1 : Int) (n1 : NodePtr) :
    ∃ x l, d :: d1 :: node_values n1 = l ++ [x] ∧
      (unlink_last d d1 n1).1 = x ∧ node_values (unlink_last d d1 n1).2 = l := by
  induction n1 generalizing d d1 with
  | null => exact ⟨d1, [d], rfl, rfl, rfl⟩
  | node d2 n2 ih =>
    obtain ⟨x, l, hl, hx, hv⟩ := ih d1 d2
    refine ⟨x, d :: l, ?_, ?_, ?_⟩
    · simp only [node_values] at hl ⊢
      rw [hl]
      rfl
    · simpa [unlink_last] using hx
    · simp [unlink_last, node_values, hv]

/-- C14: on a list whose `size` field is the number of its nodes, `delete_from_position`
at a position `p` with `0 ≤ p < size` returns the element at index `p` and leaves the
element sequence with exactly that element erased, the others in their order, and `size`
decreased by one. -/
theorem delete_from_position_removes_indexed (list : LinkedList) (p : Int)
    (hwf : list.size = (node_values list.head).length) (h0 : 0 ≤ p)
    (h1 : p < (node_values list.head).length) :
    ∃ x list1, delete_from_position list p = some (x, list1) ∧
      (node_values list.head)[p.toNat]? = some x ∧
      node_values list1.head = (node_values list.head).eraseIdx p.toNat ∧
      list1.size = list.size - 1 := by
  obtain ⟨head, size⟩ := list
  cases head with
  | null =>
    simp only [node_values, List.length_nil] at h1
    omega
  | node d n =>
    simp only at hwf h1
    have hrange : ¬ (p < 0 ∨ p ≥ size) := by omega
    by_cases hp : p = 0
    · subst hp
      refine ⟨d, { head := n, size := size - 1 }, ?_, by simp [node_values],
        by simp [node_values], rfl⟩
      unfold delete_from_position
      simp only
      rw [if_neg hrange, if_pos trivial]
      rfl
    · have hk : (p - 1).toNat + 1 < (node_values (.node d n)).length := by omega
      obtain ⟨x, h, hu, hx, hv⟩ := unlink_after_spec (.node d n) (p - 1).toNat hk
      have hidx : (p - 1).toNat + 1 = p.toNat := by omega
      rw [hidx] at hx hv
      refine ⟨x, { head := h, size := size - 1 }, ?_, hx, hv, rfl⟩
      unfold delete_from_position
      simp only
      rw [if_neg hrange, if_neg hp, hu]

theorem delete_from_position_removes_indexed_witness :
    (3 : Int) = ((node_values (.node 20 (.node 25 (.node 10 .null)))).length : Int) ∧
    (0 : Int) ≤ 1 ∧ (1 : Int) < ((node_values (.node 20 (.node 25 (.node 10 .null)))).length : Int) ∧
    ∃ x list1,
      delete_from_position { head := .node 20 (.node 25 (.node 10 .null)), size := 3 } 1
        = some (x, list1) ∧
      (node_values (.node 20 (.node 25 (.node 10 .null))))[(1 : Int).toNat]? = some x ∧
      node_values list1.head
        = (node_values (.node 20 (.node 25 (.node 10 .null)))).eraseIdx (1 : Int).toNat ∧
      list1.size = 3 - 1 :=
  ⟨by decide, by decide, by decide,
    delete_from_position_removes_indexed
      { head := .node 20 (.node 25 (.node 10 .null)), size := 3 } 1
      (by decide) (by decide) (by decide)⟩

/-- C15: `delete_from_position` at a negative position or at a position of at least
`size`, and `delete_from_end` and `delete_from_position` on an empty list, return -1 and
leave the list (element sequence and `size`) as it was. -/
theorem failed_deletions_are_noops (list : LinkedList) (p : Int) :
    (p < 0 ∨ p ≥ list.size → delete_from_position list p = some (-1, list)) ∧
    (is_empty list = true → delete_from_end list = (-1, list)) ∧
    (is_empty list = true → delete_from_position list p = some (-1, list)) := by
  obtain ⟨head, size⟩ := list
  cases head with
  | null => exact ⟨fun _ => rfl, fun _ => rfl, fun _ => rfl⟩
  | node d n =>
    refine ⟨?_, ?_, ?_⟩
    · intro h
      simp only at h
      simp [delete_from_position, h]
    · intro h
      simp [is_empty] at h
    · intro h
      simp [is_empty] at h

theorem failed_deletions_are_noops_witness :
    delete_from_position { head := .node 20 (.node 25 .null), size := 2 } 2
      = some (-1, { head := .node 20 (.node 25 .null), size := 2 }) ∧
    delete_from_position { head := .node 20 (.node 25 .null), size := 2 } (-3)
      = some (-1, { head := .node 20 (.node 25 .null), size := 2 }) ∧
    delete_from_end create_list = (-1, create_list) ∧
    delete_from_position create_list 0 = some (-1, create_list) :=
  ⟨(failed_deletions_are_noops { head := .node 20 (.node 25 .null), size := 2 } 2).1
      (by decide),
    (failed_deletions_are_noops { head := .node 20 (.node 25 .null), size := 2 } (-3)).1
      (by decide),
    (failed_deletions_are_noops create_list 0).2.1 rfl,
    (failed_deletions_are_noops create_list 0).2.2 rfl⟩

/-- C16 as stated fails at the end of the `int` range: on a non-empty list whose `size`
field is `INT_MIN` the decrement `list->size--` of `delete_from_beginning` and of
`delete_from_end` overflows; the number `size - 1` is -2147483649, which is not a value of
`int`, so no list state has its `size` decreased by one. -/
theorem delete_size_overflow_counterexample :
    is_empty { head := .node 5 .null, size := INT_MIN } = false ∧
    in_int_range ({ head := .node 5 .null, size := INT_MIN } : LinkedList).size = true ∧
    (delete_from_beginning { head := .node 5 .null, size := INT_MIN }).2.size
      = -2147483649 ∧
    in_int_range (delete_from_beginning { head := .node 5 .null, size := INT_MIN }).2.size
      = false ∧
    in_int_range (delete_from_end { head := .node 5 .null, size := INT_MIN }).2.size
      = false := by
  decide

/-- C16, amended: on a list with element sequence `x :: l`, `delete_from_beginning`
returns `x` and leaves `l`; on a list with element sequence `l ++ [x]`, `delete_from_end`
returns `x` and leaves `l`, and when `l` is empty the head is NULL afterwards; on such a
list whose `size` field is above `INT_MIN` each decrements `size` by exactly one (a value
of `int` again). -/
theorem head_and_tail_deletion (list : LinkedList) (x : Int) (l : List Int) :
    (INT_MIN < list.size → in_int_range list.size = true →
      in_int_range (list.size - 1) = true) ∧
    (node_values list.head = x :: l →
      (delete_from_beginning list).1 = x ∧
      node_values (delete_from_beginning list).2.head = l ∧
      (INT_MIN < list.size → (delete_from_beginning list).2.size = list.size - 1)) ∧
    (node_values list.head = l ++ [x] →
      (delete_from_end list).1 = x ∧
      node_values (delete_from_end list).2.head = l ∧
      (INT_MIN < list.size → (delete_from_end list).2.size = list.size - 1) ∧
      (l = [] → (delete_from_end list).2.head = .null)) := by
  refine ⟨?_, ?_⟩
  · intro hsize hin
    simp only [in_int_range, decide_eq_true_eq, INT_MIN, INT_MAX] at hin hsize ⊢
    omega
  obtain ⟨head, size⟩ := list
  refine ⟨?_, ?_⟩
  · intro h
    cases head with
    | null => simp [node_values] at h
    | node d n =>
      simp only [node_values, List.cons.injEq] at h
      exact ⟨h.1, h.2, fun _ => rfl⟩
  · intro h
    cases head with
    | null => simp [node_values] at h
    | node d n =>
      cases n with
      | null =>
        simp only [node_values] at h
        have hl : l = [] ∧ d = x := by
          cases l with
          | nil => simpa using h
          | cons y ys =>
            have hlen := congrArg List.length h
            simp at hlen
        obtain ⟨rfl, rfl⟩ := hl
        exact ⟨rfl, rfl, fun _ => rfl, fun _ => rfl⟩
      | node d1 n1 =>
        obtain ⟨y, l1, hl, hy, hv⟩ := unlink_last_spec d d1 n1
        simp only [node_values] at h
        rw [hl] at h
        obtain ⟨hl1, hyx⟩ := List.append_inj' h rfl
        simp only [List.cons.injEq, and_true] at hyx
        subst hl1 hyx
        refine ⟨hy, hv, fun _ => rfl, ?_⟩
        intro hnil
        subst hnil
        have hlen := congrArg List.length hl
        simp at hlen

theorem head_and_tail_deletion_witness :
    INT_MIN < (3 : Int) ∧
    delete_from_beginning { head := .node 30 (.node 20 (.node 50 .null)), size := 3 }
      = (30, { head := .node 20 (.node 50 .null), size := 2 }) ∧
    (delete_from_end { head := .node 30 (.node 20 (.node 50 .null)), size := 3 }).1 = 50 ∧
    node_values
      (delete_from_end { head := .node 30 (.node 20 (.node 50 .null)), size := 3 }).2.head
      = [30, 20] ∧
    (delete_from_end { head := .node 30 (.node 20 (.node 50 .null)), size := 3 }).2.size
      = 3 - 1 :=
  ⟨by decide, by decide,
    ((head_and_tail_deletion { head := .node 30 (.node 20 (.node 50 .null)), size := 3 }
      50 [30, 20]).2.2 rfl).1,
    ((head_and_tail_deletion { head := .node 30 (.node 20 (.node 50 .null)), size := 3 }
      50 [30, 20]).2.2 rfl).2.1,
    ((head_and_tail_deletion { head := .node 30 (.node 20 (.node 50 .null)), size := 3 }
      50 [30, 20]).2.2 rfl).2.2.1 (by decide)⟩

/-! ## Circular queue: the capacity-5 scenario and the peeks -/

/-- C17: on an empty circular queue with `capacity` 5, `front` 0 and `rear` -1, the five
calls enqueuing 10, 20, 30, 40, 50 return 1; two `dequeue` calls return 10 and 20;
enqueuing 60 and 70 returns 1 twice and writes them to slots 0 and 1; dequeuing until the
queue is empty then returns 30, 40, 50, 60, 70 in that order. -/
theorem capacity_five_wraparound (uninit : Buffer) (fuel : Nat) :
    ∃ q1 q2 q3 q4 q5,
      run_queue { data := uninit, front := 0, rear := -1, size := 0, capacity := 5 }
        [.enq 10, .enq 20, .enq 30, .enq 40, .enq 50] = some ([1, 1, 1, 1, 1], q1) ∧
      run_queue q1 [.deq, .deq] = some ([10, 20], q2) ∧
      enqueue q2 60 = some (1, q3) ∧ q3.rear = 0 ∧ q3.data 0 = 60 ∧
      enqueue q3 70 = some (1, q4) ∧ q4.rear = 1 ∧ q4.data 1 = 70 ∧
      dequeue_until_empty q4 (5 + fuel) = some ([30, 40, 50, 60, 70], q5) ∧
      is_queue_empty q5 = true := by
  let b1 : Buffer := Function.update (Function.update (Function.update
    (Function.update (Function.update uninit 0 10) 1 20) 2 30) 3 40) 4 50
  let b2 : Buffer := Function.update b1 0 60
  let b3 : Buffer := Function.update b2 1 70
  refine ⟨{ data := b1, front := 0, rear := 4, size := 5, capacity := 5 },
    { data := b1, front := 2, rear := 4, size := 3, capacity := 5 },
    { data := b2, front := 2, rear := 0, size := 4, capacity := 5 },
    { data := b3, front := 2, rear := 1, size := 5, capacity := 5 },
    { data := b3, front := 2, rear := 1, size := 0, capacity := 5 },
    rfl, rfl, rfl, rfl, rfl, rfl, rfl, rfl, ?_, rfl⟩
  rw [show 5 + fuel = fuel + 5 by omega]
  cases fuel <;> rfl

theorem run_bounded_fifo_last (cap : Nat) (l : List Int) (ops : List QueueOp)
    (hne : (run_bounded_fifo cap l ops).2 ≠ []) :
    (run_bounded_fifo cap l ops).2.getLast?
      = (last_successful_enqueue (ops.zip (run_bounded_fifo cap l ops).1)).or l.getLast? := by
  induction ops generalizing l with
  | nil => simp [run_bounded_fifo, last_successful_enqueue]
  | cons op ops ih =>
    have hne1 : (run_bounded_fifo cap (bounded_fifo_step cap l op).2 ops).2 ≠ [] := hne
    have h1 := ih (bounded_fifo_step cap l op).2 hne1
    show (run_bounded_fifo cap (bounded_fifo_step cap l op).2 ops).2.getLast? =
      (last_successful_enqueue ((op, (bounded_fifo_step cap l op).1) ::
        ops.zip (run_bounded_fifo cap (bounded_fifo_step cap l op).2 ops).1)).or l.getLast?
    rw [h1]
    simp only [last_successful_enqueue]
    cases hl : last_successful_enqueue
        (ops.zip (run_bounded_fifo cap (bounded_fifo_step cap l op).2 ops).1) with
    | some v => rfl
    | none =>
      rw [hl] at h1
      simp only [Option.none_or] at h1 ⊢
      have hstep : (bounded_fifo_step cap l op).2 ≠ [] := by
        intro hnil
        have h2 : (bounded_fifo_step cap l op).2.getLast? = none := by
          rw [hnil]
          rfl
        exact hne1 (List.getLast?_eq_none_iff.mp (h1.trans h2))
      cases op with
      | enq v =>
        by_cases hlt : l.length < cap
        · simp [bounded_fifo_step, hlt]
        · simp [bounded_fifo_step, hlt]
      | deq =>
        cases l with
        | nil => exact absurd rfl hstep
        | cons x xs =>
          cases xs with
          | nil => exact absurd rfl hstep
          | cons y ys => simp [bounded_fifo_step]

theorem enqueue_rear_nonneg {q q1 : Queue} {v : Int} (hc : q.capacity = 100)
    (hr : -1 ≤ q.rear) (h : enqueue q v = some (1, q1)) : 0 ≤ q1.rear := by
  unfold enqueue at h
  by_cases hfull : is_queue_full q = true
  · rw [if_pos hfull] at h
    simp at h
  · rw [if_neg hfull, hc, c_mod_of_nonneg (by omega)] at h
    simp only at h
    cases hw : buf_write MAX_QUEUE_SIZE q.data ((q.rear + 1) % 100) v with
    | none => rw [hw] at h; cases h
    | some buf =>
      rw [hw] at h
      simp only [Option.some.injEq, Prod.mk.injEq, true_and] at h
      rw [← h]
      show 0 ≤ (q.rear + 1) % 100
      omega

theorem dequeue_rear_eq {q q1 : Queue} {r : Int} (h : dequeue q = some (r, q1)) :
    q1.rear = q.rear := by
  unfold dequeue at h
  by_cases hemp : is_queue_empty q = true
  · rw [if_pos hemp] at h
    simp only [Option.some.injEq, Prod.mk.injEq] at h
    rw [← h.2]
  · rw [if_neg hemp] at h
    cases hrd : buf_read MAX_QUEUE_SIZE q.data q.front with
    | none => rw [hrd] at h; cases h
    | some x =>
      rw [hrd] at h
      simp only at h
      cases hm : c_mod (q.front + 1) q.capacity with
      | none => rw [hm] at h; cases h
      | some f =>
        rw [hm] at h
        simp only [Option.some.injEq, Prod.mk.injEq] at h
        rw [← h.2]

theorem queueHolds_run_rear {q : Queue} {l : List Int} (h : QueueHolds q l)
    (hr : l ≠ [] → 0 ≤ q.rear) (ops : List QueueOp) :
    ∃ q1, run_queue q ops = some ((run_bounded_fifo 100 l ops).1, q1) ∧
      QueueHolds q1 (run_bounded_fifo 100 l ops).2 ∧
      ((run_bounded_fifo 100 l ops).2 ≠ [] → 0 ≤ q1.rear) := by
  induction ops generalizing q l with
  | nil => exact ⟨q, rfl, h, hr⟩
  | cons op ops ih =>
    cases op with
    | enq v =>
      by_cases hlt : l.length < 100
      · obtain ⟨q1, he, h1⟩ := queueHolds_enqueue h v hlt
        have hr1 : 0 ≤ q1.rear := enqueue_rear_nonneg h.1 h.2.2.2.2.2.1 he
        obtain ⟨q2, hrun, h2, hr2⟩ := ih h1 (fun _ => hr1)
        refine ⟨q2, ?_, ?_, ?_⟩
        · simp [run_queue, he, hrun, run_bounded_fifo, bounded_fifo_step, hlt]
        · simpa [run_bounded_fifo, bounded_fifo_step, hlt] using h2
        · simpa [run_bounded_fifo, bounded_fifo_step, hlt] using hr2
      · have he := queueHolds_enqueue_full h v hlt
        obtain ⟨q2, hrun, h2, hr2⟩ := ih h hr
        refine ⟨q2, ?_, ?_, ?_⟩
        · simp [run_queue, he, hrun, run_bounded_fifo, bounded_fifo_step, hlt]
        · simpa [run_bounded_fifo, bounded_fifo_step, hlt] using h2
        · simpa [run_bounded_fifo, bounded_fifo_step, hlt] using hr2
    | deq =>
      cases l with
      | nil =>
        have he := queueHolds_dequeue_empty h
        obtain ⟨q2, hrun, h2, hr2⟩ := ih h hr
        refine ⟨q2, ?_, ?_, ?_⟩
        · simp [run_queue, he, hrun, run_bounded_fifo, bounded_fifo_step]
        · simpa [run_bounded_fifo, bounded_fifo_step] using h2
        · simpa [run_bounded_fifo, bounded_fifo_step] using hr2
      | cons x l =>
        obtain ⟨q1, he, h1⟩ := queueHolds_dequeue h
        have hr1 : 0 ≤ q1.rear := by
          rw [dequeue_rear_eq he]
          exact hr (List.cons_ne_nil x l)
        obtain ⟨q2, hrun, h2, hr2⟩ := ih h1 (fun _ => hr1)
        refine ⟨q2, ?_, ?_, ?_⟩
        · simp [run_queue, he, hrun, run_bounded_fifo, bounded_fifo_step]
        · simpa [run_bounded_fifo, bounded_fifo_step] using h2
        · simpa [run_bounded_fifo, bounded_fifo_step] using hr2

theorem queueHolds_front_element {q : Queue} {x : Int} {l : List Int}
    (h : QueueHolds q (x :: l)) : front_element q = some (x, q) := by
  obtain ⟨hc, hs, hle, hf0, hf1, hr0, hr1, hrf, hd⟩ := h
  simp only [List.length_cons] at hs hd
  push_cast at hs
  have hemp : is_queue_empty q = false := by
    simp only [is_queue_empty, decide_eq_false_iff_not]
    omega
  have hx : q.data q.front.toNat = x := by
    have := hd 0 (by omega)
    have h100 : (q.front.toNat + 0) % 100 = q.front.toNat := by omega
    rw [h100] at this
    simpa using this.symm
  have hrd : buf_read MAX_QUEUE_SIZE q.data q.front = some x := by
    simp only [buf_read, MAX_QUEUE_SIZE]
    rw [if_pos (by omega), hx]
  simp [front_element, hemp, hrd]

theorem queueHolds_rear_element {q : Queue} {l : List Int} {v : Int}
    (h : QueueHolds q l) (hr : 0 ≤ q.rear) (hv : l.getLast? = some v) :
    rear_element q = some (v, q) := by
  obtain ⟨hc, hs, hle, hf0, hf1, hr0, hr1, hrf, hd⟩ := h
  have hpos : 0 < l.length := by
    cases l with
    | nil => simp at hv
    | cons x xs => simp
  have hemp : is_queue_empty q = false := by
    simp only [is_queue_empty, decide_eq_false_iff_not]
    omega
  have hidx : (q.front.toNat + (l.length - 1)) % 100 = q.rear.toNat := by omega
  have hx : q.data q.rear.toNat = v := by
    have := hd (l.length - 1) (by omega)
    rw [← List.getLast?_eq_getElem?, hv, hidx] at this
    simpa using this.symm
  have hrd : buf_read MAX_QUEUE_SIZE q.data q.rear = some v := by
    simp only [buf_read, MAX_QUEUE_SIZE]
    rw [if_pos (by omega), hx]
  simp [rear_element, hemp, hrd]

/-- C18: in the state reached from `create_queue` by any sequence of `enqueue` /
`dequeue` calls, when the queue is not empty `front_element` returns the value the next
`dequeue` returns and `rear_element` returns the value passed to the most recent
successful `enqueue` (read at a `rear` that is at least 0); on an empty queue both return
-1; in every case the queue is left as it was. -/
theorem queue_peeks (uninit : Buffer) (ops : List QueueOp) :
    ∃ q, run_queue (create_queue uninit) ops = some ((run_bounded_fifo 100 [] ops).1, q) ∧
      (is_queue_empty q = true →
        front_element q = some (-1, q) ∧ rear_element q = some (-1, q)) ∧
      (is_queue_empty q = false →
        ∃ x v q1, dequeue q = some (x, q1) ∧ front_element q = some (x, q) ∧
          last_successful_enqueue (ops.zip (run_bounded_fifo 100 [] ops).1) = some v ∧
          rear_element q = some (v, q) ∧ 0 ≤ q.rear) := by
  obtain ⟨q, hrun, hq, hrear⟩ :=
    queueHolds_run_rear (queueHolds_create uninit) (fun h => absurd rfl h) ops
  refine ⟨q, hrun, ?_, ?_⟩
  · intro hemp
    simp [front_element, rear_element, hemp]
  · intro hemp
    have hsize : q.size = ((run_bounded_fifo 100 [] ops).2.length : Int) := hq.2.1
    have hne : (run_bounded_fifo 100 [] ops).2 ≠ [] := by
      intro hnil
      rw [hnil] at hsize
      simp [is_queue_empty] at hemp
      exact hemp (by simpa using hsize)
    have hlast := run_bounded_fifo_last 100 [] ops hne
    simp only [List.getLast?_nil, Option.or_none] at hlast
    cases hl : (run_bounded_fifo 100 [] ops).2 with
    | nil => exact absurd hl hne
    | cons x xs =>
      rw [hl] at hq
      obtain ⟨q1, hdq, _⟩ := queueHolds_dequeue hq
      have hfront := queueHolds_front_element hq
      cases hv : (x :: xs).getLast? with
      | none => exact absurd (List.getLast?_eq_none_iff.mp hv) (List.cons_ne_nil x xs)
      | some v =>
        have hre := queueHolds_rear_element hq (hrear hne) hv
        rw [hl, hv] at hlast
        exact ⟨x, v, q1, hdq, hfront, hlast.symm, hre, hrear hne⟩

theorem queue_peeks_witness :
    ∃ q, run_queue (create_queue (fun _ => 0)) [.enq 10, .enq 20, .deq, .enq 30]
        = some ((run_bounded_fifo 100 [] [.enq 10, .enq 20, .deq, .enq 30]).1, q) ∧
      front_element q = some (20, q) ∧ rear_element q = some (30, q) := by
  obtain ⟨q, hrun, _, hne⟩ := queue_peeks (fun _ => 0) [.enq 10, .enq 20, .deq, .enq 30]
  refine ⟨q, hrun, ?_⟩
  have hq : some ((run_bounded_fifo 100 [] [.enq 10, .enq 20, .deq, .enq 30]).1, q)
      = some ([1, 1, 10, 1], Queue.mk (Function.update (Function.update (Function.update
          (fun _ => 0) 0 10) 1 20) 2 30) 1 2 2 100) := by
    rw [← hrun]
    rfl
  simp only [Option.some.injEq, Prod.mk.injEq] at hq
  obtain ⟨x, v, q1, _, hf, hl, hr, _⟩ := hne (by rw [hq.2]; rfl)
  have hv : some v = some 30 := hl.symm.trans rfl
  have hx : some (x, q) = some (20, q) := hf.symm.trans (by rw [hq.2]; rfl)
  simp only [Option.some.injEq, Prod.mk.injEq, and_true] at hv hx
  rw [hx] at hf
  rw [hv] at hr
  exact ⟨hf, hr⟩

/-! ## The two stack variants side by side -/

theorem peek_of_pop {s s1 : Stack} {v : Int} (hne : is_stack_empty s = false)
    (h : pop s = some (v, s1)) : peek s = some (v, s) := by
  unfold pop at h
  unfold peek
  rw [hne] at h ⊢
  simp only [Bool.false_eq_true, if_false] at h ⊢
  cases hr : buf_read MAX_STACK_SIZE s.data s.top with
  | none => rw [hr] at h; cases h
  | some x =>
    rw [hr] at h
    simp only [Option.some.injEq, Prod.mk.injEq] at h
    rw [h.1]

theorem stacksAgree_step {s : Stack} {ls : LinkedStack} {l : List Int}
    (h : StacksAgree s ls l) (op : StackOp) (ops : List StackOp)
    (hw : stays_within 100 l.length (op :: ops) = true) :
    ∃ s1 l1, stack_step s op = some ((linked_stack_step ls op).1, s1) ∧
      StacksAgree s1 (linked_stack_step ls op).2 l1 ∧
      stays_within 100 l1.length ops = true := by
  obtain ⟨hs, hv, hsz⟩ := h
  obtain ⟨top, size⟩ := ls
  simp only at hv hsz
  cases op with
  | push v =>
    simp only [stays_within, Bool.and_eq_true, decide_eq_true_eq] at hw
    obtain ⟨s1, hp, h1⟩ := stackHolds_push hs v (by omega)
    refine ⟨s1, l ++ [v], ?_, ⟨h1, ?_, ?_⟩, ?_⟩
    · simpa [stack_step, linked_stack_step, push_linked] using hp
    · simp [linked_stack_step, push_linked, stack_values, hv]
    · simp only [linked_stack_step, push_linked, if_true, List.length_append,
        List.length_singleton]
      push_cast
      omega
    · simpa using hw.2
  | pop =>
    simp only [stays_within, Bool.and_eq_true, decide_eq_true_eq] at hw
    rcases List.eq_nil_or_concat l with hnil | ⟨l0, x, hl⟩
    · subst hnil
      have htop : s.top = -1 := by
        have := hs.2.1
        simp only [List.length_nil] at this
        omega
      have hnull : top = .null := stack_values_eq_nil (by simpa using hv)
      subst hnull
      refine ⟨s, [], ?_, ⟨hs, hv, hsz⟩, ?_⟩
      · simp [stack_step, linked_stack_step, pop, pop_linked, is_stack_empty, htop]
      · simpa using hw.2
    · rw [List.concat_eq_append] at hl
      subst hl
      obtain ⟨s1, hp, h1⟩ := stackHolds_pop hs
      cases top with
      | null => simp [stack_values] at hv
      | node d n =>
        simp only [stack_values, List.reverse_append, List.reverse_singleton,
          List.singleton_append, List.cons.injEq] at hv
        obtain ⟨rfl, hn⟩ := hv
        refine ⟨s1, l0, ?_, ⟨h1, hn, ?_⟩, ?_⟩
        · simpa [stack_step, linked_stack_step, pop_linked] using hp
        · simp only [linked_stack_step, pop_linked, hsz, List.length_append,
            List.length_singleton]
          push_cast
          omega
        · simpa using hw.2
  | peek =>
    simp only [stays_within, Bool.and_eq_true, decide_eq_true_eq] at hw
    rcases List.eq_nil_or_concat l with hnil | ⟨l0, x, hl⟩
    · subst hnil
      have htop : s.top = -1 := by
        have := hs.2.1
        simp only [List.length_nil] at this
        omega
      have hnull : top = .null := stack_values_eq_nil (by simpa using hv)
      subst hnull
      refine ⟨s, [], ?_, ⟨hs, hv, hsz⟩, ?_⟩
      · simp [stack_step, linked_stack_step, peek, peek_linked, is_stack_empty, htop]
      · simpa using hw.2
    · rw [List.concat_eq_append] at hl
      subst hl
      obtain ⟨s1, hp, _⟩ := stackHolds_pop hs
      have hne : is_stack_empty s = false := by
        have := hs.2.1
        simp only [List.length_append, List.length_singleton] at this
        simp only [is_stack_empty, decide_eq_false_iff_not]
        omega
      have hpk := peek_of_pop hne hp
      cases top with
      | null => simp [stack_values] at hv
      | node d n =>
        have hdx : d = x := by
          simp only [stack_values, List.reverse_append, List.reverse_singleton,
            List.singleton_append, List.cons.injEq] at hv
          exact hv.1
        subst hdx
        refine ⟨s, l0 ++ [d], ?_, ⟨hs, hv, hsz⟩, hw.2⟩
        simpa [stack_step, linked_stack_step, peek_linked] using hpk
  | size =>
    simp only [stays_within, Bool.and_eq_true, decide_eq_true_eq] at hw
    refine ⟨s, l, ?_, ⟨hs, hv, hsz⟩, hw.2⟩
    have := hs.2.1
    simp [stack_step, linked_stack_step, stack_size, linked_stack_size, hsz, this]
  | is_empty =>
    simp only [stays_within, Bool.and_eq_true, decide_eq_true_eq] at hw
    refine ⟨s, l, ?_, ⟨hs, hv, hsz⟩, hw.2⟩
    have htop := hs.2.1
    cases top with
    | null =>
      have hl : l = [] := by simpa [stack_values] using hv.symm
      subst hl
      have : s.top = -1 := by
        simp only [List.length_nil] at htop
        omega
      simp [stack_step, linked_stack_step, is_stack_empty, is_linked_stack_empty, this]
    | node d n =>
      have hl : l ≠ [] := by
        intro hnil
        subst hnil
        simp [stack_values] at hv
      have hpos : 0 < l.length := List.length_pos.mpr hl
      have : ¬ s.top = -1 := by omega
      simp [stack_step, linked_stack_step, is_stack_empty, is_linked_stack_empty, this]

theorem stacksAgree_run {s : Stack} {ls : LinkedStack} {l : List Int}
    (h : StacksAgree s ls l) (ops : List StackOp)
    (hw : stays_within 100 l.length ops = true) :
    ∃ s1, run_stack s ops = some ((run_linked_stack ls ops).1, s1) := by
  induction ops generalizing s ls l with
  | nil => exact ⟨s, rfl⟩
  | cons op ops ih =>
    obtain ⟨s1, l1, hstep, h1, hw1⟩ := stacksAgree_step h op ops hw
    obtain ⟨s2, hrun⟩ := ih h1 hw1
    exact ⟨s2, by simp [run_stack, run_linked_stack, hstep, hrun]⟩

/-- C19: for every sequence of push / pop / peek / size / is-empty calls that never
stores more than 100 elements, the array-backed stack from `create_stack` runs the whole
sequence and returns, call by call, the values the node-backed stack from
`create_linked_stack` returns (allocations succeeding). -/
theorem stack_variants_agree (uninit : Buffer) (ops : List StackOp)
    (h : stays_within 100 0 ops = true) :
    ∃ s1, run_stack (create_stack uninit) ops
      = some ((run_linked_stack create_linked_stack ops).1, s1) :=
  @stacksAgree_run (create_stack uninit) create_linked_stack []
    ⟨stackHolds_create uninit, rfl, rfl⟩ ops h

theorem stack_variants_agree_witness :
    stays_within 100 0
      [.push 10, .push 20, .peek, .size, .pop, .is_empty, .pop, .pop, .is_empty] = true ∧
    ∃ s1, run_stack (create_stack (fun _ => 0))
        [.push 10, .push 20, .peek, .size, .pop, .is_empty, .pop, .pop, .is_empty]
      = some ((run_linked_stack create_linked_stack
        [.push 10, .push 20, .peek, .size, .pop, .is_empty, .pop, .pop, .is_empty]).1, s1) :=
  ⟨by decide, stack_variants_agree (fun _ => 0)
    [.push 10, .push 20, .peek, .size, .pop, .is_empty, .pop, .pop, .is_empty] (by decide)⟩

/-- C20: pushing -1 on a fresh array-backed stack gives a non-empty stack on which `pop`
succeeds and returns -1, the value `pop` also returns on the empty stack; so the return
value of `pop` is the same in a state where `is_stack_empty` is false and in one where
it is true. -/
theorem pop_sentinel_is_ambiguous (uninit : Buffer) :
    ∃ s1 s2, push (create_stack uninit) (-1) = some (1, s1) ∧
      is_stack_empty s1 = false ∧ pop s1 = some (-1, s2) ∧
      is_stack_empty (create_stack uninit) = true ∧
      pop (create_stack uninit) = some (-1, create_stack uninit) ∧
      (pop s1).map Prod.fst = (pop (create_stack uninit)).map Prod.fst :=
  ⟨{ data := Function.update uninit 0 (-1), top := 0, capacity := 100 },
    { data := Function.update uninit 0 (-1), top := -1, capacity := 100 },
    rfl, rfl, rfl, rfl, rfl, rfl⟩

/-! ## Circular queue: one successful step -/

/-- C21 as stated fails: with `size < capacity` and `capacity > 0` but `rear = -5` the
new rear index `(rear + 1) % capacity` is -4, in front of the buffer, and with
`capacity = 2000000000` and `rear = 999999999` it is 1000000000, far behind the 100
slots; the write `data[rear] = data` is outside the buffer and `enqueue` has no defined
result, so it does not store the value in a buffer slot and return 1. -/
theorem enqueue_success_step_counterexample :
    ((0 : Int) < 100 ∧ (0 : Int) < 100 ∧ c_mod (-5 + 1) 100 = some (-4) ∧
      enqueue { data := fun _ => 0, front := 0, rear := -5, size := 0, capacity := 100 } 7
        = none) ∧
    ((0 : Int) < 2000000000 ∧ (0 : Int) < 2000000000 ∧
      in_int_range 2000000000 = true ∧
      c_mod (999999999 + 1) 2000000000 = some 1000000000 ∧
      enqueue { data := fun _ => 0, front := 0, rear := 999999999, size := 0,
                capacity := 2000000000 } 7 = none) :=
  ⟨⟨by decide, by decide, rfl, rfl⟩, ⟨by decide, by decide, by decide, rfl, rfl⟩⟩

/-- C21, amended: for every circular queue state with `size < capacity`, `capacity > 0`,
`rear` below `INT_MAX` (so that `rear + 1` does not overflow) and the new rear index
`(rear + 1) % capacity` (C remainder) inside the buffer, that is in `[0, 100)`, `enqueue`
returns 1, sets `rear` to that index, stores the value there, increments `size` by one
and leaves `front`, `capacity` and every other buffer slot unchanged; `rear + 1` and
`size + 1` are values of `int` again. -/
theorem enqueue_success_step (q : Queue) (v : Int) (hs : q.size < q.capacity)
    (hc : 0 < q.capacity) (hrear : q.rear < INT_MAX)
    (hlo : 0 ≤ Int.tmod (q.rear + 1) q.capacity)
    (hhi : Int.tmod (q.rear + 1) q.capacity < 100) :
    (∃ q1, enqueue q v = some (1, q1) ∧
      q1.rear = Int.tmod (q.rear + 1) q.capacity ∧
      q1.data q1.rear.toNat = v ∧
      q1.size = q.size + 1 ∧
      q1.front = q.front ∧ q1.capacity = q.capacity ∧
      ∀ i : Nat, i ≠ q1.rear.toNat → q1.data i = q.data i) ∧
    (in_int_range q.rear = true → in_int_range (q.rear + 1) = true) ∧
    (in_int_range q.size = true → in_int_range q.capacity = true →
      in_int_range (q.size + 1) = true) := by
  have hfull : is_queue_full q = false := by
    simp only [is_queue_full, decide_eq_false_iff_not]
    omega
  have hm : c_mod (q.rear + 1) q.capacity = some (Int.tmod (q.rear + 1) q.capacity) := by
    simp only [c_mod]
    rw [if_neg (by omega)]
  have hw : buf_write MAX_QUEUE_SIZE q.data (Int.tmod (q.rear + 1) q.capacity) v
      = some (Function.update q.data (Int.tmod (q.rear + 1) q.capacity).toNat v) := by
    simp only [buf_write, MAX_QUEUE_SIZE]
    rw [if_pos ⟨hlo, hhi⟩]
  refine ⟨⟨{ q with data := Function.update q.data (Int.tmod (q.rear + 1) q.capacity).toNat v,
                    rear := Int.tmod (q.rear + 1) q.capacity, size := q.size + 1 },
    ?_, rfl, ?_, rfl, rfl, rfl, ?_⟩, ?_, ?_⟩
  · simp [enqueue, hfull, hm, hw]
  · simp
  · intro i hi
    exact Function.update_noteq hi _ _
  · intro hin
    simp only [in_int_range, decide_eq_true_eq, INT_MIN, INT_MAX] at hin hrear ⊢
    omega
  · intro hin hcap
    simp only [in_int_range, decide_eq_true_eq, INT_MIN, INT_MAX] at hin hcap ⊢
    omega

theorem enqueue_success_step_witness :
    (3 : Int) < 100 ∧ (0 : Int) < 100 ∧ (99 : Int) < INT_MAX ∧ 0 ≤ Int.tmod (99 + 1) 100 ∧
    Int.tmod (99 + 1) 100 < 100 ∧
    ∃ q1, enqueue { data := fun _ => 0, front := 97, rear := 99, size := 3, capacity := 100 } 7
        = some (1, q1) ∧
      q1.rear = Int.tmod (99 + 1) 100 ∧ q1.data q1.rear.toNat = 7 ∧ q1.size = 3 + 1 ∧
      q1.front = 97 ∧ q1.capacity = 100 ∧
      ∀ i : Nat, i ≠ q1.rear.toNat → q1.data i = (fun _ => 0) i :=
  ⟨by decide, by decide, by decide, by decide, by decide,
    (enqueue_success_step
      { data := fun _ => 0, front := 97, rear := 99, size := 3, capacity := 100 } 7
      (by decide) (by decide) (by decide) (by decide) (by decide)).1⟩

/-- C22 as stated fails: with `size > 0` but `front = 100` the read `data[front]` is
outside the buffer, and with `capacity = 0` the remainder `(front + 1) % capacity`
divides by zero; `dequeue` then has no defined result. -/
theorem dequeue_success_step_counterexample :
    ((0 : Int) < 1 ∧
      dequeue { data := fun _ => 0, front := 100, rear := 99, size := 1, capacity := 100 }
        = none) ∧
    ((0 : Int) < 1 ∧
      dequeue { data := fun _ => 0, front := 0, rear := 0, size := 1, capacity := 0 }
        = none) :=
  ⟨⟨by decide, rfl⟩, ⟨by decide, rfl⟩⟩

/-- C22, amended: for every circular queue state with `size > 0`, `front` inside the
buffer (`0 ≤ front < 100`) and `capacity` not 0, `dequeue` returns the buffer element at
index `front`, sets `front` to `(front + 1) % capacity` (C remainder, the mathematical
remainder when `capacity > 0`), decrements `size` by one and leaves `rear`, `capacity`
and the buffer contents unchanged. -/
theorem dequeue_success_step (q : Queue) (hs : 0 < q.size) (hf0 : 0 ≤ q.front)
    (hf1 : q.front < 100) (hc : q.capacity ≠ 0) :
    dequeue q = some (q.data q.front.toNat,
      { q with front := Int.tmod (q.front + 1) q.capacity, size := q.size - 1 }) ∧
    (0 < q.capacity → Int.tmod (q.front + 1) q.capacity = (q.front + 1) % q.capacity) ∧
    ∀ r q1, dequeue q = some (r, q1) →
      r = q.data q.front.toNat ∧ q1.front = Int.tmod (q.front + 1) q.capacity ∧
      q1.size = q.size - 1 ∧ q1.rear = q.rear ∧ q1.capacity = q.capacity ∧
      q1.data = q.data := by
  have hemp : is_queue_empty q = false := by
    simp only [is_queue_empty, decide_eq_false_iff_not]
    omega
  have hr : buf_read MAX_QUEUE_SIZE q.data q.front = some (q.data q.front.toNat) := by
    simp only [buf_read, MAX_QUEUE_SIZE]
    rw [if_pos ⟨hf0, hf1⟩]
  have hm : c_mod (q.front + 1) q.capacity = some (Int.tmod (q.front + 1) q.capacity) := by
    simp only [c_mod]
    rw [if_neg hc]
  have hd : dequeue q = some (q.data q.front.toNat,
      { q with front := Int.tmod (q.front + 1) q.capacity, size := q.size - 1 }) := by
    simp [dequeue, hemp, hr, hm]
  refine ⟨hd, ?_, ?_⟩
  · intro hpos
    exact Int.tmod_eq_emod (by omega) (by omega)
  · intro r q1 h1
    rw [hd] at h1
    simp only [Option.some.injEq, Prod.mk.injEq] at h1
    obtain ⟨rfl, rfl⟩ := h1
    exact ⟨rfl, rfl, rfl, rfl, rfl, rfl⟩

theorem dequeue_success_step_witness :
    (0 : Int) < 3 ∧ (0 : Int) ≤ 99 ∧ (99 : Int) < 100 ∧ (100 : Int) ≠ 0 ∧
    dequeue { data := fun i => 10 * i, front := 99, rear := 1, size := 3, capacity := 100 }
      = some (990, Queue.mk (fun i => 10 * i) 0 1 2 100) :=
  ⟨by decide, by decide, by decide, by decide,
    (dequeue_success_step
      { data := fun i => 10 * i, front := 99, rear := 1, size := 3, capacity := 100 }
      (by decide) (by decide) (by decide) (by decide)).1⟩

/-! ## Invariants of the reachable states -/

/-- C23: in the state reached from `create_queue` by any sequence of `enqueue` /
`dequeue` calls, `0 ≤ size ≤ capacity = 100`, `0 ≤ front < capacity`,
`-1 ≤ rear < capacity` and `(rear + 1) mod capacity = (front + size) mod capacity`, and
the stored elements (the values enqueued and not yet dequeued, in insertion order) are
exactly the contents of the `size` consecutive slots starting at `front`, modulo
`capacity`. -/
theorem circular_queue_invariant (uninit : Buffer) (ops : List QueueOp) :
    ∃ q, run_queue (create_queue uninit) ops = some ((run_bounded_fifo 100 [] ops).1, q) ∧
      0 ≤ q.size ∧ q.size ≤ q.capacity ∧ q.capacity = 100 ∧
      0 ≤ q.front ∧ q.front < q.capacity ∧ -1 ≤ q.rear ∧ q.rear < q.capacity ∧
      (q.rear + 1) % q.capacity = (q.front + q.size) % q.capacity ∧
      q.size = (run_bounded_fifo 100 [] ops).2.length ∧
      (run_bounded_fifo 100 [] ops).2
        = (List.range q.size.toNat).map
            (fun i => q.data ((q.front.toNat + i) % q.capacity.toNat)) := by
  obtain ⟨q, hrun, hc, hs, hle, hf0, hf1, hr0, hr1, hrf, hd⟩ :=
    queueHolds_run (queueHolds_create uninit) ops
  refine ⟨q, hrun, by omega, by omega, hc, hf0, by omega, hr0, by omega, ?_, hs, ?_⟩
  · rw [hc, hs]
    exact hrf
  · apply List.ext_getElem?
    intro i
    rw [hc, hs]
    simp only [Int.toNat_ofNat, List.getElem?_map, List.getElem?_range]
    by_cases hi : i < (run_bounded_fifo 100 [] ops).2.length
    · rw [hd i hi, List.getElem?_range hi]
      rfl
    · rw [List.getElem?_eq_none (by omega), List.getElem?_eq_none (by simp; omega)]
      rfl

/-- C27: `reverse_list` yields exactly the reversed element sequence (the same elements,
in reverse order), leaves the `size` field unchanged and does nothing on the empty
list. -/
theorem reverse_list_reverses (list : LinkedList) :
    node_values (reverse_list list).head = (node_values list.head).reverse ∧
    (node_values (reverse_list list).head).Perm (node_values list.head) ∧
    (reverse_list list).size = list.size ∧
    (is_empty list = true → reverse_list list = list) := by
  obtain ⟨hv, hs⟩ := node_values_reverse_list list
  refine ⟨hv, ?_, hs, ?_⟩
  · rw [hv]
    exact List.reverse_perm _
  · intro hemp
    obtain ⟨head, size⟩ := list
    cases head with
    | null => rfl
    | node d n => simp [is_empty] at hemp

theorem reverse_list_reverses_witness :
    node_values (reverse_list
      { head := .node 20 (.node 25 (.node 10 (.node 40 .null))), size := 4 }).head
      = [40, 10, 25, 20] ∧
    reverse_list create_list = create_list :=
  ⟨(reverse_list_reverses
      { head := .node 20 (.node 25 (.node 10 (.node 40 .null))), size := 4 }).1,
    (reverse_list_reverses create_list).2.2.2 rfl⟩

theorem queueChain_front_none_iff {heap : QueueHeap} {p : Option Nat}
    {cells : List (Nat × Int)} (h : QueueChain heap p cells) : p = none ↔ cells = [] := by
  cases cells with
  | nil => exact ⟨fun _ => rfl, fun _ => h⟩
  | cons c rest =>
    obtain ⟨a, v⟩ := c
    have hp : p = some a := h.1
    rw [hp]
    simp

theorem getLast?_map_fst_none_iff (cells : List (Nat × Int)) :
    cells.getLast?.map Prod.fst = none ↔ cells = [] := by
  rw [Option.map_eq_none', List.getLast?_eq_none_iff]

/-- C25: in the state reached from `create_linked_queue` by any sequence of
`enqueue_linked` / `dequeue_linked` calls (allocations succeeding), `size` is the number
of nodes of the chain from `front`, `front` is NULL iff `rear` is NULL iff `size` is 0,
and `rear` is the last node of the chain when there is one; when the chain has exactly
one node, `dequeue_linked` leaves both `front` and `rear` NULL. -/
theorem linked_queue_invariant (heap : QueueHeap) (ops : List QueueOp) :
    ∃ h q cells, run_linked_queue heap create_linked_queue ops
        = some ((run_fifo [] ops).1, h, q) ∧
      QueueChain h q.front cells ∧ q.size = cells.length ∧
      (q.front = none ↔ q.rear = none) ∧ (q.rear = none ↔ q.size = 0) ∧
      q.rear = cells.getLast?.map Prod.fst ∧
      (cells.length = 1 →
        ∃ x h1 q1, dequeue_linked h q = some (x, h1, q1) ∧
          q1.front = none ∧ q1.rear = none ∧ q1.size = 0) := by
  obtain ⟨h, q, hrun, hh⟩ := linkedQueueHolds_run (linkedQueueHolds_create heap) ops
  obtain ⟨cells, hvals, hchain, hnd, hrear, hsize⟩ := id hh
  have hlen : q.size = cells.length := by
    rw [hsize, ← hvals, List.length_map]
  have hfront := queueChain_front_none_iff hchain
  have hrear0 : q.rear = none ↔ cells = [] := by
    rw [hrear]
    exact getLast?_map_fst_none_iff cells
  refine ⟨h, q, cells, hrun, hchain, hlen, hfront.trans hrear0.symm, ?_, hrear, ?_⟩
  · rw [hrear0, hlen]
    constructor
    · intro hnil
      rw [hnil]
      rfl
    · intro h0
      exact List.length_eq_zero.mp (by exact_mod_cast h0)
  · intro h1
    cases hl : (run_fifo [] ops).2 with
    | nil =>
      rw [hl] at hvals
      have : cells = [] := by simpa using hvals
      rw [this] at h1
      simp at h1
    | cons x xs =>
      have hxs : xs = [] := by
        have := congrArg List.length hvals
        rw [hl, List.length_map, h1] at this
        simp only [List.length_cons] at this
        exact List.length_eq_zero.mp (by omega)
      subst hxs
      rw [hl] at hh
      obtain ⟨h1, q1, hdq, hh1⟩ := linkedQueueHolds_dequeue hh
      obtain ⟨cells1, hvals1, hchain1, _, hrear1, hsize1⟩ := hh1
      have hc1 : cells1 = [] := by simpa using hvals1
      subst hc1
      exact ⟨x, h1, q1, hdq, hchain1, hrear1, hsize1⟩

theorem linked_queue_invariant_witness :
    ∃ h q cells, run_linked_queue [] create_linked_queue [.enq 10, .enq 20, .deq]
        = some ((run_fifo [] [.enq 10, .enq 20, .deq]).1, h, q) ∧
      QueueChain h q.front cells ∧ q.size = cells.length ∧
      (q.front = none ↔ q.rear = none) ∧ (q.rear = none ↔ q.size = 0) ∧
      q.rear = cells.getLast?.map Prod.fst ∧
      (cells.length = 1 →
        ∃ x h1 q1, dequeue_linked h q = some (x, h1, q1) ∧
          q1.front = none ∧ q1.rear = none ∧ q1.size = 0) :=
  linked_queue_invariant [] [.enq 10, .enq 20, .deq]

/-! ## FULL to NON_EMPTY and back -/

/-- C28 as stated fails for the queue: a state with `size = capacity = 100` whose
`front` is 1000000000 is full, but `dequeue` reads `data[1000000000]`, a thousand million
slots behind the 100-slot buffer; the read is outside the buffer and the dequeue has no
defined result, so it does not succeed. -/
theorem full_to_non_empty_counterexample :
    ((100 : Int) = 100 ∧ in_int_range 1000000000 = true ∧
      is_queue_full
        { data := fun _ => 0, front := 1000000000, rear := 99, size := 100,
          capacity := 100 } = true ∧
      buf_read MAX_QUEUE_SIZE (fun _ => 0) 1000000000 = none ∧
      dequeue { data := fun _ => 0, front := 1000000000, rear := 99, size := 100,
                capacity := 100 } = none) :=
  ⟨rfl, by decide, rfl, rfl, rfl⟩

/-- C28, amended: for every full array-backed stack state (`top + 1 = capacity = 100`),
and for every full circular queue state (`size = capacity = 100`) whose `front` is inside
the buffer and whose `rear` is at least -1 and below `INT_MAX` (so that `rear + 1` does
not overflow), one `pop` (resp. `dequeue`) succeeds and leaves the container neither full
nor empty, after which one `push` (resp. `enqueue`) succeeds and makes it full again, and
the next one fails. -/
theorem full_to_non_empty (s : Stack) (q : Queue) (v w : Int) :
    (s.top + 1 = s.capacity → s.capacity = 100 →
      ∃ s1 s2, pop s = some (s.data 99, s1) ∧
        is_stack_full s1 = false ∧ is_stack_empty s1 = false ∧
        push s1 v = some (1, s2) ∧ is_stack_full s2 = true ∧
        push s2 w = some (0, s2)) ∧
    (q.size = q.capacity → q.capacity = 100 → 0 ≤ q.front → q.front < 100 → -1 ≤ q.rear →
      q.rear < INT_MAX →
      (∃ q1 q2, dequeue q = some (q.data q.front.toNat, q1) ∧
        is_queue_full q1 = false ∧ is_queue_empty q1 = false ∧
        enqueue q1 v = some (1, q2) ∧ is_queue_full q2 = true ∧
        enqueue q2 w = some (0, q2)) ∧
      in_int_range (q.rear + 1) = true ∧ in_int_range (q.front + 1) = true) := by
  constructor
  · intro ht hc
    have htop : s.top = 99 := by omega
    refine ⟨{ s with top := 98 },
      { s with data := Function.update s.data 99 v, top := 99 }, ?_, ?_, ?_, ?_, ?_, ?_⟩
    · simp [pop, is_stack_empty, buf_read, MAX_STACK_SIZE, htop]
    · simp [is_stack_full, hc]
    · simp [is_stack_empty]
    · simp [push, is_stack_full, buf_write, MAX_STACK_SIZE, hc]
    · simp [is_stack_full, hc]
    · simp [push, is_stack_full, hc]
  · intro hs hc hf0 hf1 hr hrmax
    have hsz : q.size = 100 := by omega
    have hm1 : c_mod (q.front + 1) q.capacity = some ((q.front + 1) % 100) := by
      rw [hc]
      exact c_mod_of_nonneg (by omega)
    have hrd : buf_read MAX_QUEUE_SIZE q.data q.front = some (q.data q.front.toNat) := by
      simp only [buf_read, MAX_QUEUE_SIZE]
      rw [if_pos ⟨hf0, hf1⟩]
    have hw : buf_write MAX_QUEUE_SIZE q.data ((q.rear + 1) % 100) v
        = some (Function.update q.data ((q.rear + 1) % 100).toNat v) := by
      simp only [buf_write, MAX_QUEUE_SIZE]
      rw [if_pos (by omega)]
    refine ⟨⟨{ q with front := (q.front + 1) % 100, size := 99 },
      { q with data := Function.update q.data ((q.rear + 1) % 100).toNat v,
               front := (q.front + 1) % 100, rear := (q.rear + 1) % 100, size := 100 },
      ?_, ?_, ?_, ?_, ?_, ?_⟩, ?_, ?_⟩
    · have hm4 : c_mod (q.front + 1) 100 = some ((q.front + 1) % 100) :=
        c_mod_of_nonneg (by omega)
      simp [dequeue, is_queue_empty, hsz, hrd, hm1, hm4]
    · simp [is_queue_full, hc]
    · simp [is_queue_empty]
    · have hm3 : c_mod (q.rear + 1) 100 = some ((q.rear + 1) % 100) :=
        c_mod_of_nonneg (by omega)
      simp [enqueue, is_queue_full, hc, hm3, hw]
    · simp [is_queue_full, hc]
    · simp [enqueue, is_queue_full, hc]
    · simp only [in_int_range, decide_eq_true_eq, INT_MIN, INT_MAX] at hrmax ⊢
      omega
    · simp only [in_int_range, decide_eq_true_eq, INT_MIN, INT_MAX]
      omega

theorem full_to_non_empty_witness :
    (∃ s1 s2, pop { data := fun i => i, top := 99, capacity := 100 } = some (99, s1) ∧
      is_stack_full s1 = false ∧ is_stack_empty s1 = false ∧
      push s1 5 = some (1, s2) ∧ is_stack_full s2 = true ∧ push s2 6 = some (0, s2)) ∧
    (∃ q1 q2,
      dequeue { data := fun i => i, front := 7, rear := 6, size := 100, capacity := 100 }
        = some (7, q1) ∧
      is_queue_full q1 = false ∧ is_queue_empty q1 = false ∧
      enqueue q1 5 = some (1, q2) ∧ is_queue_full q2 = true ∧
      enqueue q2 6 = some (0, q2)) :=
  ⟨(full_to_non_empty { data := fun i => i, top := 99, capacity := 100 }
      { data := fun i => i, front := 7, rear := 6, size := 100, capacity := 100 } 5 6).1
      (by decide) rfl,
    ((full_to_non_empty { data := fun i => i, top := 99, capacity := 100 }
      { data := fun i => i, front := 7, rear := 6, size := 100, capacity := 100 } 5 6).2
      rfl rfl (by decide) (by decide) (by decide) (by decide)).1⟩

/-! ## Linked list: the size invariant -/

theorem list_step_size {list : LinkedList} (h : list.size = (node_values list.head).length)
    (op : ListOp) :
    ∃ l1, list_step list op = some l1 ∧ l1.size = (node_values l1.head).length := by
  cases op with
  | insert_at_beginning data ok =>
    refine ⟨_, rfl, ?_⟩
    cases ok with
    | false => exact h
    | true =>
      rw [(node_values_insert_at_beginning list data).1,
        (node_values_insert_at_beginning list data).2, h]
      simp
  | insert_at_end data ok =>
    refine ⟨_, rfl, ?_⟩
    cases ok with
    | false => exact h
    | true =>
      rw [(node_values_insert_at_end list data).1, (node_values_insert_at_end list data).2, h]
      simp
  | insert_at_position data position ok =>
    by_cases hneg : position < 0
    · exact ⟨list, by simp [list_step, insert_at_position, hneg], h⟩
    · by_cases h0 : position = 0
      · refine ⟨insert_at_beginning list data ok,
          by simp [list_step, insert_at_position, h0], ?_⟩
        cases ok with
        | false => exact h
        | true =>
          rw [(node_values_insert_at_beginning list data).1,
            (node_values_insert_at_beginning list data).2, h]
          simp
      · by_cases hge : position ≥ list.size
        · refine ⟨insert_at_end list data ok,
            by simp [list_step, insert_at_position, hneg, h0, hge], ?_⟩
          cases ok with
          | false => exact h
          | true =>
            rw [(node_values_insert_at_end list data).1,
              (node_values_insert_at_end list data).2, h]
            simp
        · cases ok with
          | false =>
            refine ⟨list, ?_, h⟩
            unfold list_step insert_at_position
            simp only
            rw [if_neg hneg, if_neg h0, if_neg hge]
            rfl
          | true =>
            have hk : (position - 1).toNat < (node_values list.head).length := by omega
            obtain ⟨hd, hs, hv⟩ := splice_after_spec list.head (position - 1).toNat data hk
            refine ⟨{ head := hd, size := list.size + 1 }, ?_, ?_⟩
            · unfold list_step insert_at_position
              simp only
              rw [if_neg hneg, if_neg h0, if_neg hge, if_pos trivial, hs]
            · have hlen := congrArg List.length hv
              simp only [List.length_append, List.length_take, List.length_drop,
                List.length_singleton] at hlen
              show list.size + 1 = _
              rw [hlen, h]
              push_cast
              omega
  | delete_from_beginning =>
    refine ⟨_, rfl, ?_⟩
    obtain ⟨head, size⟩ := list
    cases head with
    | null => exact h
    | node d n =>
      simp only [node_values, List.length_cons] at h
      show size - 1 = ((node_values n).length : Int)
      rw [h]
      push_cast
      omega
  | delete_from_end =>
    refine ⟨_, rfl, ?_⟩
    obtain ⟨head, size⟩ := list
    cases head with
    | null => exact h
    | node d n =>
      cases n with
      | null =>
        simp only [node_values, List.length_cons, List.length_nil] at h
        show size - 1 = _
        rw [h]
        rfl
      | node d1 n1 =>
        obtain ⟨x, l, hl, _, hv⟩ := unlink_last_spec d d1 n1
        have hlen := congrArg List.length hl
        simp only [List.length_cons, List.length_append, List.length_nil] at hlen
        simp only [node_values, List.length_cons] at h
        show size - 1 = ((node_values (unlink_last d d1 n1).2).length : Int)
        rw [hv, h]
        push_cast
        omega
  | delete_from_position position =>
    obtain ⟨head, size⟩ := list
    cases head with
    | null => exact ⟨_, rfl, h⟩
    | node d n =>
      simp only at h
      by_cases hrange : position < 0 ∨ position ≥ size
      · refine ⟨{ head := .node d n, size := size }, ?_, h⟩
        simp [list_step, delete_from_position, hrange]
      · by_cases h0 : position = 0
        · refine ⟨{ head := n, size := size - 1 }, ?_, ?_⟩
          · unfold list_step delete_from_position
            simp only
            rw [if_neg hrange, if_pos h0]
            rfl
          · simp only [node_values, List.length_cons] at h
            show size - 1 = ((node_values n).length : Int)
            rw [h]
            push_cast
            omega
        · have hk : (position - 1).toNat + 1 < (node_values (.node d n)).length := by omega
          obtain ⟨x, hd, hu, _, hv⟩ := unlink_after_spec (.node d n) (position - 1).toNat hk
          refine ⟨{ head := hd, size := size - 1 }, ?_, ?_⟩
          · unfold list_step delete_from_position
            simp only
            rw [if_neg hrange, if_neg h0, hu]
          · show size - 1 = _
            rw [hv, List.length_eraseIdx, if_pos hk, h]
            omega
  | reverse_list =>
    refine ⟨_, rfl, ?_⟩
    rw [(node_values_reverse_list list).1, (node_values_reverse_list list).2, h]
    simp

theorem run_list_size {list : LinkedList} (h : list.size = (node_values list.head).length)
    (ops : List ListOp) :
    ∃ l1, run_list list ops = some l1 ∧ l1.size = (node_values l1.head).length := by
  induction ops generalizing list with
  | nil => exact ⟨list, rfl, h⟩
  | cons op ops ih =>
    obtain ⟨l1, hstep, h1⟩ := list_step_size h op
    obtain ⟨l2, hrun, h2⟩ := ih h1
    exact ⟨l2, by simp [run_list, hstep, hrun], h2⟩

/-- C24: every sequence of `insert_at_beginning`, `insert_at_end`, `insert_at_position`,
`delete_from_beginning`, `delete_from_end`, `delete_from_position` and `reverse_list`
calls from `create_list` (whatever the positions, whether or not an allocation succeeds)
runs without dereferencing NULL and ends in a state whose `size` field is the number of
nodes reachable from `head`; so `is_empty` holds exactly when `get_size` is 0. -/
theorem list_size_invariant (ops : List ListOp) :
    ∃ list, run_list create_list ops = some list ∧
      list.size = (node_values list.head).length ∧
      (is_empty list = true ↔ get_size list = 0) := by
  obtain ⟨list, hrun, hsize⟩ := @run_list_size create_list rfl ops
  refine ⟨list, hrun, hsize, ?_⟩
  obtain ⟨head, size⟩ := list
  simp only at hsize
  cases head with
  | null =>
    simp only [node_values, List.length_nil] at hsize
    simp [is_empty, get_size, hsize]
  | node d n =>
    simp only [node_values, List.length_cons] at hsize
    have : size ≠ 0 := by
      rw [hsize]
      push_cast
      omega
    simp [is_empty, get_size, this]

/-! ## Array-backed stack: the invariant of the reachable states -/

theorem stackHolds_push_full {s : Stack} {l : List Int} (h : StackHolds s l) (v : Int)
    (hge : ¬ l.length < 100) : push s v = some (0, s) := by
  obtain ⟨hc, ht, hle, _⟩ := h
  have hfull : is_stack_full s = true := by
    simp only [is_stack_full, decide_eq_true_eq]
    omega
  simp [push, hfull]

theorem stackHolds_empty {s : Stack} (h : StackHolds s []) : is_stack_empty s = true := by
  have := h.2.1
  simp only [List.length_nil] at this
  simp only [is_stack_empty, decide_eq_true_eq]
  omega

theorem stackHolds_nonempty {s : Stack} {l : List Int} {x : Int}
    (h : StackHolds s (l ++ [x])) : is_stack_empty s = false := by
  have := h.2.1
  simp only [List.length_append, List.length_singleton] at this
  simp only [is_stack_empty, decide_eq_false_iff_not]
  omega

theorem stackHolds_step {s : Stack} {l : List Int} (h : StackHolds s l) (op : StackOp) :
    ∃ r s1, stack_step s op = some (r, s1) ∧
      StackHolds s1 (pushed_not_popped 100 l [op]) := by
  cases op with
  | push v =>
    by_cases hlt : l.length < 100
    · obtain ⟨s1, hp, h1⟩ := stackHolds_push h v hlt
      exact ⟨1, s1, hp, by simpa [pushed_not_popped, hlt] using h1⟩
    · exact ⟨0, s, stackHolds_push_full h v hlt, by simpa [pushed_not_popped, hlt] using h⟩
  | pop =>
    rcases List.eq_nil_or_concat l with hnil | ⟨l0, x, hl⟩
    · subst hnil
      refine ⟨-1, s, ?_, by simpa [pushed_not_popped] using h⟩
      simp [stack_step, pop, stackHolds_empty h]
    · rw [List.concat_eq_append] at hl
      subst hl
      obtain ⟨s1, hp, h1⟩ := stackHolds_pop h
      exact ⟨x, s1, hp, by simpa [pushed_not_popped] using h1⟩
  | peek =>
    rcases List.eq_nil_or_concat l with hnil | ⟨l0, x, hl⟩
    · subst hnil
      refine ⟨-1, s, ?_, by simpa [pushed_not_popped] using h⟩
      simp [stack_step, peek, stackHolds_empty h]
    · rw [List.concat_eq_append] at hl
      subst hl
      obtain ⟨s1, hp, _⟩ := stackHolds_pop h
      exact ⟨x, s, peek_of_pop (stackHolds_nonempty h) hp,
        by simpa [pushed_not_popped] using h⟩
  | size => exact ⟨_, s, rfl, by simpa [pushed_not_popped] using h⟩
  | is_empty => exact ⟨_, s, rfl, by simpa [pushed_not_popped] using h⟩

theorem pushed_not_popped_cons (cap : Nat) (l : List Int) (op : StackOp)
    (ops : List StackOp) :
    pushed_not_popped cap l (op :: ops)
      = pushed_not_popped cap (pushed_not_popped cap l [op]) ops := by
  cases op <;> rfl

theorem stackHolds_run {s : Stack} {l : List Int} (h : StackHolds s l) (ops : List StackOp) :
    ∃ rs s1, run_stack s ops = some (rs, s1) ∧
      StackHolds s1 (pushed_not_popped 100 l ops) := by
  induction ops generalizing s l with
  | nil => exact ⟨[], s, rfl, h⟩
  | cons op ops ih =>
    obtain ⟨r, s1, hstep, h1⟩ := stackHolds_step h op
    obtain ⟨rs, s2, hrun, h2⟩ := ih h1
    refine ⟨r :: rs, s2, by simp [run_stack, hstep, hrun], ?_⟩
    rw [pushed_not_popped_cons]
    exact h2

/-- C26: every sequence of push / pop / peek calls (and size or emptiness queries) from
`create_stack`, successful or failing, runs without an out-of-bounds access and ends in a
state with `capacity = 100` and `0 ≤ top + 1 ≤ capacity` whose slots `0..top` hold exactly
the values pushed and not yet popped, oldest first. -/
theorem array_stack_invariant (uninit : Buffer) (ops : List StackOp) :
    ∃ rs s, run_stack (create_stack uninit) ops = some (rs, s) ∧
      s.capacity = 100 ∧ 0 ≤ s.top + 1 ∧ s.top + 1 ≤ s.capacity ∧
      pushed_not_popped 100 [] ops = (List.range (s.top + 1).toNat).map s.data := by
  obtain ⟨rs, s, hrun, hc, ht, hle, hd⟩ := stackHolds_run (stackHolds_create uninit) ops
  refine ⟨rs, s, hrun, hc, by omega, by omega, ?_⟩
  apply List.ext_getElem?
  intro i
  rw [ht]
  simp only [Int.toNat_ofNat, List.getElem?_map]
  by_cases hi : i < (pushed_not_popped 100 [] ops).length
  · rw [hd i hi, List.getElem?_range hi]
    rfl
  · rw [List.getElem?_eq_none (by omega), List.getElem?_eq_none (by simp; omega)]
    rfl

theorem array_stack_invariant_witness :
    ∃ rs s, run_stack (create_stack (fun _ => 0)) [.push 10, .push 20, .peek, .pop, .push 30]
        = some (rs, s) ∧
      s.capacity = 100 ∧ 0 ≤ s.top + 1 ∧ s.top + 1 ≤ s.capacity ∧
      [10, 30] = (List.range (s.top + 1).toNat).map s.data :=
  array_stack_invariant (fun _ => 0) [.push 10, .push 20, .peek, .pop, .push 30]

/-! ## Array accesses of the reachable states -/

/-- C30: in the states reached from `create_stack` (by any sequence of push, pop, peek,
size and emptiness calls) and from `create_queue` (by any sequence of `enqueue` and
`dequeue` calls; `front_element` and `rear_element` change nothing), every call of the
sequence and every further `push`, `pop`, `peek`, `enqueue`, `dequeue`, `front_element`
and `rear_element` has a defined result, so no buffer access leaves `[0, 100)` and no
remainder divides by zero: the index written by `push` and by `enqueue`, and the indices
read through `top`, `front` and `rear` on a non-empty container, lie in `[0, 100)`, and
`capacity` is not 0. -/
theorem array_accesses_in_bounds (uninit : Buffer) (sops : List StackOp)
    (qops : List QueueOp) (v : Int) :
    (∃ rs s, run_stack (create_stack uninit) sops = some (rs, s) ∧
      (push s v).isSome = true ∧ (pop s).isSome = true ∧ (peek s).isSome = true ∧
      (is_stack_full s = false → 0 ≤ s.top + 1 ∧ s.top + 1 < 100) ∧
      (is_stack_empty s = false → 0 ≤ s.top ∧ s.top < 100)) ∧
    (∃ rs q, run_queue (create_queue uninit) qops = some (rs, q) ∧
      (enqueue q v).isSome = true ∧ (dequeue q).isSome = true ∧
      (front_element q).isSome = true ∧ (rear_element q).isSome = true ∧
      q.capacity ≠ 0 ∧
      (is_queue_full q = false →
        c_mod (q.rear + 1) q.capacity = some ((q.rear + 1) % 100) ∧
          0 ≤ (q.rear + 1) % 100 ∧ (q.rear + 1) % 100 < 100) ∧
      (is_queue_empty q = false →
        0 ≤ q.front ∧ q.front < 100 ∧ 0 ≤ q.rear ∧ q.rear < 100)) := by
  constructor
  · obtain ⟨rs, s, hrun, hs⟩ := stackHolds_run (stackHolds_create uninit) sops
    obtain ⟨r1, s1, h1, _⟩ := stackHolds_step hs (.push v)
    obtain ⟨r2, s2, h2, _⟩ := stackHolds_step hs .pop
    obtain ⟨r3, s3, h3, _⟩ := stackHolds_step hs .peek
    simp only [stack_step] at h1 h2 h3
    obtain ⟨hc, ht, hle, _⟩ := hs
    refine ⟨rs, s, hrun, by simp [h1], by simp [h2], by simp [h3], ?_, ?_⟩
    · intro hfull
      simp only [is_stack_full, decide_eq_false_iff_not] at hfull
      omega
    · intro hemp
      simp only [is_stack_empty, decide_eq_false_iff_not] at hemp
      omega
  · obtain ⟨q, hrun, hq, hrear⟩ :=
      queueHolds_run_rear (queueHolds_create uninit) (fun h => absurd rfl h) qops
    have henq : (enqueue q v).isSome = true := by
      by_cases hlt : (run_bounded_fifo 100 [] qops).2.length < 100
      · obtain ⟨q1, he, _⟩ := queueHolds_enqueue hq v hlt
        simp [he]
      · simp [queueHolds_enqueue_full hq v hlt]
    have hdeq : (dequeue q).isSome = true ∧ (front_element q).isSome = true ∧
        (rear_element q).isSome = true := by
      cases hl : (run_bounded_fifo 100 [] qops).2 with
      | nil =>
        rw [hl] at hq
        have hemp : is_queue_empty q = true := by
          have := hq.2.1
          simpa [is_queue_empty] using this
        simp [queueHolds_dequeue_empty hq, front_element, rear_element, hemp]
      | cons x xs =>
        have hne : (run_bounded_fifo 100 [] qops).2 ≠ [] := by
          rw [hl]
          exact List.cons_ne_nil x xs
        rw [hl] at hq
        obtain ⟨q1, hd, _⟩ := queueHolds_dequeue hq
        cases hv : (x :: xs).getLast? with
        | none => exact absurd (List.getLast?_eq_none_iff.mp hv) (List.cons_ne_nil x xs)
        | some w =>
          simp [hd, queueHolds_front_element hq,
            queueHolds_rear_element hq (hrear hne) hv]
    obtain ⟨hc, hs, hle, hf0, hf1, hr0, hr1, hrf, _⟩ := hq
    refine ⟨_, q, hrun, henq, hdeq.1, hdeq.2.1, hdeq.2.2, by omega, ?_, ?_⟩
    · intro _
      refine ⟨?_, by omega, by omega⟩
      rw [hc]
      exact c_mod_of_nonneg (by omega)
    · intro hemp
      have hne : (run_bounded_fifo 100 [] qops).2 ≠ [] := by
        intro hnil
        rw [hnil] at hs
        simp [is_queue_empty] at hemp
        exact hemp (by simpa using hs)
      exact ⟨hf0, hf1, hrear hne, hr1⟩

/-! ## The parentheses check of main.c -/

theorem paren_excess_append (l1 l2 : List Char) :
    paren_excess (l1 ++ l2) = paren_excess l1 + paren_excess l2 := by
  induction l1 with
  | nil => simp [paren_excess]
  | cons c l1 ih =>
    show paren_excess (c :: (l1 ++ l2)) = paren_excess (c :: l1) + paren_excess l2
    simp only [paren_excess, ih]
    split
    · omega
    · split <;> omega

theorem paren_excess_replicate_open (n : Nat) :
    paren_excess (List.replicate n '(') = n := by
  induction n with
  | zero => rfl
  | succ n ih =>
    simp only [List.replicate_succ, paren_excess, ih, if_true]
    push_cast
    rfl

theorem paren_excess_replicate_close (n : Nat) :
    paren_excess (List.replicate n ')') = -(n : Int) := by
  induction n with
  | zero => rfl
  | succ n ih =>
    have hne : ¬ (')' = '(') := by decide
    simp only [List.replicate_succ, paren_excess, ih, if_neg hne, if_true]
    push_cast
    omega

theorem paren_loop_spec {s : Stack} {l : List Int} (h : StackHolds s l) (cs : List Char)
    (hcap : ∀ k : Nat, (l.length : Int) + paren_excess (cs.take k) ≤ 100) :
    ∃ b s1, paren_loop s cs = some (b, s1) ∧
      ((∀ k : Nat, 0 ≤ (l.length : Int) + paren_excess (cs.take k)) →
        b = 1 ∧ ∃ l1, StackHolds s1 l1 ∧ (l1.length : Int) = l.length + paren_excess cs) ∧
      (¬ (∀ k : Nat, 0 ≤ (l.length : Int) + paren_excess (cs.take k)) → b = 0) := by
  induction cs generalizing s l with
  | nil =>
    refine ⟨1, s, rfl, fun _ => ⟨rfl, l, h, by simp [paren_excess]⟩, ?_⟩
    intro hnot
    exfalso
    apply hnot
    intro k
    simp [paren_excess]
  | cons c cs ih =>
    by_cases hopen : c = '('
    · have hlt : l.length < 100 := by
        have := hcap 1
        simp only [List.take_succ_cons, List.take_zero, paren_excess, if_pos hopen] at this
        omega
      obtain ⟨s1, hp, h1⟩ := stackHolds_push h 1 hlt
      have hcap1 : ∀ k : Nat,
          ((l ++ [1]).length : Int) + paren_excess (cs.take k) ≤ 100 := by
        intro k
        have := hcap (k + 1)
        simp only [List.take_succ_cons, paren_excess, if_pos hopen] at this
        simp only [List.length_append, List.length_singleton]
        push_cast
        omega
      obtain ⟨b, s2, hloop, hyes, hno⟩ := ih h1 hcap1
      have hiff : (∀ k : Nat, 0 ≤ (l.length : Int) + paren_excess ((c :: cs).take k)) ↔
          (∀ k : Nat, 0 ≤ ((l ++ [1]).length : Int) + paren_excess (cs.take k)) := by
        constructor
        · intro hall k
          have := hall (k + 1)
          simp only [List.take_succ_cons, paren_excess, if_pos hopen] at this
          simp only [List.length_append, List.length_singleton]
          push_cast
          omega
        · intro hall k
          cases k with
          | zero => simp [paren_excess]
          | succ k =>
            have := hall k
            simp only [List.length_append, List.length_singleton] at this
            push_cast at this
            simp only [List.take_succ_cons, paren_excess, if_pos hopen]
            omega
      refine ⟨b, s2, ?_, ?_, ?_⟩
      · simp only [paren_loop, if_pos hopen, hp]
        exact hloop
      · intro hall
        obtain ⟨hb, l1, hl1, hlen⟩ := hyes (hiff.mp hall)
        refine ⟨hb, l1, hl1, ?_⟩
        simp only [List.length_append, List.length_singleton] at hlen
        push_cast at hlen
        simp only [paren_excess, if_pos hopen]
        omega
      · intro hnot
        exact hno (fun hall => hnot (hiff.mpr hall))
    · by_cases hclose : c = ')'
      · rcases List.eq_nil_or_concat l with hnil | ⟨l0, x, hl⟩
        · subst hnil
          refine ⟨0, s, ?_, ?_, fun _ => rfl⟩
          · simp only [paren_loop, if_neg hopen, if_pos hclose, stackHolds_empty h, if_true]
          · intro hall
            have := hall 1
            simp only [List.take_succ_cons, List.take_zero, paren_excess, if_neg hopen,
              if_pos hclose, List.length_nil] at this
            omega
        · rw [List.concat_eq_append] at hl
          subst hl
          obtain ⟨s1, hp, h1⟩ := stackHolds_pop h
          have hcap1 : ∀ k : Nat, (l0.length : Int) + paren_excess (cs.take k) ≤ 100 := by
            intro k
            have := hcap (k + 1)
            simp only [List.take_succ_cons, paren_excess, if_neg hopen, if_pos hclose,
              List.length_append, List.length_singleton] at this
            push_cast at this
            omega
          obtain ⟨b, s2, hloop, hyes, hno⟩ := ih h1 hcap1
          have hiff : (∀ k : Nat,
                0 ≤ ((l0 ++ [x]).length : Int) + paren_excess ((c :: cs).take k)) ↔
              (∀ k : Nat, 0 ≤ (l0.length : Int) + paren_excess (cs.take k)) := by
            constructor
            · intro hall k
              have := hall (k + 1)
              simp only [List.take_succ_cons, paren_excess, if_neg hopen, if_pos hclose,
                List.length_append, List.length_singleton] at this
              push_cast at this
              omega
            · intro hall k
              cases k with
              | zero =>
                simp only [List.take_zero, paren_excess, List.length_append,
                  List.length_singleton]
                push_cast
                omega
              | succ k =>
                have := hall k
                simp only [List.take_succ_cons, paren_excess, if_neg hopen, if_pos hclose,
                  List.length_append, List.length_singleton]
                push_cast
                omega
          refine ⟨b, s2, ?_, ?_, ?_⟩
          · simp only [paren_loop, if_neg hopen, if_pos hclose, stackHolds_nonempty h, hp]
            exact hloop
          · intro hall
            obtain ⟨hb, l1, hl1, hlen⟩ := hyes (hiff.mp hall)
            refine ⟨hb, l1, hl1, ?_⟩
            simp only [paren_excess, if_neg hopen, if_pos hclose, List.length_append,
              List.length_singleton]
            push_cast
            omega
          · intro hnot
            exact hno (fun hall => hnot (hiff.mpr hall))
      · have hcap1 : ∀ k : Nat, (l.length : Int) + paren_excess (cs.take k) ≤ 100 := by
          intro k
          have := hcap (k + 1)
          simpa only [List.take_succ_cons, paren_excess, if_neg hopen, if_neg hclose]
            using this
        obtain ⟨b, s2, hloop, hyes, hno⟩ := ih h hcap1
        have hiff : (∀ k : Nat, 0 ≤ (l.length : Int) + paren_excess ((c :: cs).take k)) ↔
            (∀ k : Nat, 0 ≤ (l.length : Int) + paren_excess (cs.take k)) := by
          constructor
          · intro hall k
            have := hall (k + 1)
            simpa only [List.take_succ_cons, paren_excess, if_neg hopen, if_neg hclose]
              using this
          · intro hall k
            cases k with
            | zero => simp [paren_excess]
            | succ k =>
              have := hall k
              simpa only [List.take_succ_cons, paren_excess, if_neg hopen, if_neg hclose]
                using this
        refine ⟨b, s2, ?_, ?_, ?_⟩
        · simp only [paren_loop, if_neg hopen, if_neg hclose]
          exact hloop
        · intro hall
          obtain ⟨hb, l1, hl1, hlen⟩ := hyes (hiff.mp hall)
          refine ⟨hb, l1, hl1, ?_⟩
          simp only [paren_excess, if_neg hopen, if_neg hclose]
          exact hlen
        · intro hnot
          exact hno (fun hall => hnot (hiff.mpr hall))

/-- C29 as stated fails beyond the capacity of the stack: the string of 101 opening
parentheses followed by 101 closing parentheses is balanced, but the 101st `push` is
rejected (its return value is not looked at), the 101st closing parenthesis finds the
stack empty, and `balanced` ends as 0. -/
theorem parentheses_check_counterexample :
    parens_balanced (List.replicate 101 '(' ++ List.replicate 101 ')') ∧
    check_parentheses (fun _ => 0) (List.replicate 101 '(' ++ List.replicate 101 ')')
      = some 0 := by
  refine ⟨⟨?_, ?_⟩, ?_⟩
  · intro n
    rw [List.take_append_eq_append_take, List.take_replicate, List.take_replicate,
      paren_excess_append, paren_excess_replicate_open, paren_excess_replicate_close,
      List.length_replicate]
    omega
  · rw [paren_excess_append, paren_excess_replicate_open, paren_excess_replicate_close]
    omega
  · set_option maxRecDepth 100000 in decide

/-- C29, amended: for every character string in which no prefix has over 100 more
opening than closing parentheses (the capacity of the stack), the parentheses check of
`demonstrate_practical_applications` ends with `balanced` equal to 1 if the parentheses
of the string are balanced and equal to 0 otherwise, other characters being ignored. -/
theorem parentheses_check_within_capacity (uninit : Buffer) (expression : List Char)
    (hdepth : ∀ k : Nat, paren_excess (expression.take k) ≤ 100) :
    ∃ b, check_parentheses uninit expression = some b ∧ (b = 1 ∨ b = 0) ∧
      (b = 1 ↔ parens_balanced expression) := by
  have hcap : ∀ k : Nat,
      ((([] : List Int).length : Nat) : Int) + paren_excess (expression.take k) ≤ 100 := by
    intro k
    have := hdepth k
    simp only [List.length_nil]
    omega
  obtain ⟨b0, s1, hloop, hyes, hno⟩ := paren_loop_spec (stackHolds_create uninit) expression hcap
  have hcheck : check_parentheses uninit expression
      = some (if is_stack_empty s1 then b0 else 0) := by
    simp only [check_parentheses, hloop]
  by_cases hall : ∀ k : Nat,
      0 ≤ ((([] : List Int).length : Nat) : Int) + paren_excess (expression.take k)
  · obtain ⟨hb, l1, hl1, hlen⟩ := hyes hall
    have hpre : ∀ n : Nat, 0 ≤ paren_excess (expression.take n) := by
      intro n
      have := hall n
      simp only [List.length_nil] at this
      omega
    simp only [List.length_nil] at hlen
    have htop := hl1.2.1
    by_cases hzero : paren_excess expression = 0
    · have hemp : is_stack_empty s1 = true := by
        simp only [is_stack_empty, decide_eq_true_eq]
        omega
      refine ⟨1, ?_, Or.inl rfl, ?_⟩
      · rw [hcheck, hemp, hb]
        rfl
      · exact ⟨fun _ => ⟨hpre, hzero⟩, fun _ => rfl⟩
    · have hemp : is_stack_empty s1 = false := by
        simp only [is_stack_empty, decide_eq_false_iff_not]
        omega
      refine ⟨0, ?_, Or.inr rfl, ?_⟩
      · rw [hcheck, hemp]
        rfl
      · constructor
        · intro h01
          exact absurd h01 (by decide)
        · intro hbal
          exact absurd hbal.2 hzero
  · have hb := hno hall
    refine ⟨0, ?_, Or.inr rfl, ?_⟩
    · rw [hcheck, hb]
      cases is_stack_empty s1 <;> rfl
    · constructor
      · intro h01
        exact absurd h01 (by decide)
      · intro hbal
        exfalso
        apply hall
        intro k
        have := hbal.1 k
        simp only [List.length_nil]
        omega

theorem parentheses_check_within_capacity_witness :
    check_parentheses (fun _ => 0) ['(', '(', '(', ')', ')', ')'] = some 1 ∧
    parens_balanced ['(', '(', '(', ')', ')', ')'] := by
  have hdepth : ∀ k : Nat, paren_excess (['(', '(', '(', ')', ')', ')'].take k) ≤ 100 := by
    intro k
    by_cases hk : k < 7
    · interval_cases k <;> decide
    · rw [List.take_of_length_le (by simp only [List.length_cons, List.length_nil]; omega)]
      decide
  obtain ⟨b, hb, _, hiff⟩ := parentheses_check_within_capacity (fun _ => 0)
    ['(', '(', '(', ')', ')', ')'] hdepth
  have h1 : check_parentheses (fun _ => 0) ['(', '(', '(', ')', ')', ')'] = some 1 := by
    decide
  have hb1 : b = 1 := by
    rw [h1] at hb
    exact (Option.some.inj hb).symm
  exact ⟨h1, hiff.mp hb1⟩

end DS
